import Mathlib

/-!
Verification of the walk-forward portfolio-optimization and backtesting engine
(`backtester.py`, `rolling_portfolio_optimizer.py`, `optimizer_mpt.py`,
`portfolio_constructor.py`) against its natural-language specification.

Modelling conventions:
* dates are day numbers (`Int`, days since 1970-01-01), mirroring pandas
  `DatetimeIndex` timestamps at day resolution;
* float values are modelled by `ℚ`; a pandas `NaN` cell is `Option.none`;
* external numeric primitives (float square root, `scipy.stats.norm.cdf`,
  `np.linalg.pinv`, the `scipy.optimize.minimize` SLSQP solver and the float
  power used to de-annualize returns) are oracle parameters: the embedding is
  parametric in them and the theorems quantify over them.
-/

namespace Spec2Proof

abbrev Sym := String

/-- Row of a pandas DataFrame with a datetime index: the date label together
with the cells, aligned with the column-label list; `none` models `NaN`. -/
abbrev Row := Int × List (Option ℚ)

/-- A pandas DataFrame: column labels plus rows. -/
structure Panel where
  syms : List Sym
  rows : List Row
deriving DecidableEq

/-- Mean of a list of rationals (`Series.mean`; the empty case is never hit on
the paths the claims exercise). -/
def meanQ (l : List ℚ) : ℚ := l.sum / l.length

/-- Population variance (`std(ddof=0)` squared / `np.std` squared). -/
def popVar (l : List ℚ) : ℚ := (l.map (fun x => (x - meanQ l) ^ 2)).sum / l.length

/-- Series lookup with a default, `series.get(key, default)`. -/
def lookupD (l : List (Sym × ℚ)) (s : Sym) (d : ℚ) : ℚ :=
  match l.find? (fun e => e.1 == s) with
  | some e => e.2
  | none => d

/-- Python slice `l[-k:]` as used via `iloc`: the last `k` elements, except
that `k = 0` yields all of `l` (Python `-0 == 0`). -/
def takeLastPy {α : Type} (k : Nat) (l : List α) : List α :=
  if k = 0 then l else l.drop (l.length - k)

/-- Pandas `clip(lower=lo, upper=hi)` on a scalar. -/
def clipQ (lo hi x : ℚ) : ℚ := min hi (max lo x)

/-! ## Calendar (pandas `resample` period ends)

`get_rebalancing_dates` and `rebalance_weights` rely on
`pd.Series(...).resample(freq).last()`, whose index is the list of calendar
period-end labels from the period of the first index entry to the period of
the last one.  Day numbers are converted to and from the civil calendar with
the standard (Howard Hinnant) algorithms; Lean's `Int` division truncates
toward zero exactly like the C-style division those algorithms assume, and the
negative operands are pre-shifted as in the original. -/

/-- Day number since 1970-01-01 to (year, month, day). -/
def civilFromDays (z0 : Int) : Int × Int × Int :=
  let z := z0 + 719468
  let era : Int := (if 0 ≤ z then z else z - 146096) / 146097
  let doe : Int := z - era * 146097
  let yoe : Int := (doe - doe / 1460 + doe / 36524 - doe / 146096) / 365
  let y : Int := yoe + era * 400
  let doy : Int := doe - (365 * yoe + yoe / 4 - yoe / 100)
  let mp : Int := (5 * doy + 2) / 153
  let d : Int := doy - (153 * mp + 2) / 5 + 1
  let m : Int := mp + (if mp < 10 then 3 else -9)
  (y + (if m ≤ 2 then 1 else 0), m, d)

/-- Civil date (year, month, day) to day number since 1970-01-01. -/
def daysFromCivil (y m d : Int) : Int :=
  let y1 := y - (if m ≤ 2 then 1 else 0)
  let era : Int := (if 0 ≤ y1 then y1 else y1 - 399) / 400
  let yoe : Int := y1 - era * 400
  let mp : Int := m + (if 2 < m then -3 else 9)
  let doy : Int := (153 * mp + 2) / 5 + d - 1
  let doe : Int := yoe * 365 + yoe / 4 - yoe / 100 + doy
  era * 146097 + doe - 719468

/-- Gregorian leap-year test. -/
def isLeap (y : Int) : Bool := (y % 4 == 0 && y % 100 != 0) || y % 400 == 0

/-- Number of days in a civil month. -/
def lastDayOfMonth (y m : Int) : Int :=
  if m == 2 then (if isLeap y then 29 else 28)
  else if m == 4 || m == 6 || m == 9 || m == 11 then 30
  else 31

/-- Resampling frequencies accepted by the code (`D`, `W`, `M`→`ME`, `Q`→`QE`,
`Y`→`YE`; the alias map in the source only renames them). -/
inductive Freq
  | D
  | W
  | M
  | Q
  | Y
deriving DecidableEq

/-- Last day of the period containing day `d` for each frequency: the day
itself, the following Sunday (pandas `W` is week-ending-Sunday), the calendar
month end, quarter end, or year end. -/
def periodEnd : Freq → Int → Int
  | .D, d => d
  | .W, d => d + (6 - (d + 3) % 7)
  | .M, d =>
    let c := civilFromDays d
    daysFromCivil c.1 c.2.1 (lastDayOfMonth c.1 c.2.1)
  | .Q, d =>
    let c := civilFromDays d
    let qm := 3 * ((c.2.1 + 2) / 3)
    daysFromCivil c.1 qm (lastDayOfMonth c.1 qm)
  | .Y, d => daysFromCivil (civilFromDays d).1 12 31

/-- Successive period-end labels starting at `cur`, up to `hi`.  Consecutive
period ends are at least one day apart; the `max` with `cur + 1` makes that
explicit so that the generated label list is strictly increasing by
construction. -/
def genPeriodEnds (f : Freq) : Nat → Int → Int → List Int
  | 0, _, _ => []
  | fuel + 1, cur, hi =>
    if cur ≤ hi then cur :: genPeriodEnds f fuel (max (periodEnd f (cur + 1)) (cur + 1)) hi
    else []

/-- Embeds `get_rebalancing_dates` (rolling_portfolio_optimizer.py lines
30-47): the index of `pd.Series(1.0, index=index).resample(freq).last()`,
i.e. the calendar period-end labels of every period from the earliest to the
latest index entry (not necessarily members of `index`). -/
def get_rebalancing_dates (index : List Int) (f : Freq) : List Int :=
  match index with
  | [] => []
  | d :: rest =>
    let lo := rest.foldl min d
    let hi := rest.foldl max d
    let e0 := periodEnd f lo
    let e1 := periodEnd f hi
    genPeriodEnds f ((e1 - e0).toNat + 1) e0 e1

/-! ## Sorting and returns -/

/-- Row ordering by date label, the comparison done by `sort_index`. -/
def rowLe (a b : Row) : Prop := a.1 ≤ b.1

instance : DecidableRel rowLe := fun a b => inferInstanceAs (Decidable (a.1 ≤ b.1))

/-- Embeds `DataFrame.sort_index()` (a stable sort on the date labels). -/
def sortRows (rows : List Row) : List Row :=
  rows.insertionSort rowLe

/-- One cell of `pct_change` without forward-filling (`fill_method=None`, the
pandas 3 default): `cur / prev - 1`, `NaN` when either side is missing. -/
def pctCell (prev cur : Option ℚ) : Option ℚ :=
  match prev, cur with
  | some a, some b => some (b / a - 1)
  | _, _ => none

/-- True when every cell of the row is `NaN` (the `dropna(how="all")` test). -/
def rowAllNone (r : Row) : Bool := r.2.all Option.isNone

/-- Embeds `compute_returns` (backtester.py lines 21-24):
`price_df.sort_index().pct_change().dropna(how="all")`.  The first row of
`pct_change` is all-`NaN`; `dropna(how="all")` removes it together with any
other all-`NaN` row.  Note the absence of any raising path: the function is
total on every input panel. -/
def compute_returns (p : Panel) : Panel :=
  let s := sortRows p.rows
  let pct : List Row :=
    match s with
    | [] => []
    | r0 :: _ =>
      (r0.1, r0.2.map (fun _ => (none : Option ℚ))) ::
        List.zipWith (fun prev cur => (cur.1, List.zipWith pctCell prev.2 cur.2)) s s.tail
  ⟨p.syms, pct.filter (fun r => !rowAllNone r)⟩

/-! ## Portfolio constructors (`portfolio_constructor.py`) -/

/-- Embeds `equal_weight_weights` (portfolio_constructor.py lines 13-16). -/
def equal_weight_weights (tickers : List Sym) : List (Sym × ℚ) :=
  let n := tickers.length
  let v : ℚ := if 0 < n then 1 / n else 0
  tickers.map (fun t => (t, v))

/-- Cells of column `j` of a row list. -/
def colCells (rows : List Row) (j : Nat) : List (Option ℚ) :=
  rows.map (fun r => r.2.getD j none)

/-- Present (non-`NaN`) values of a list of cells. -/
def someVals (cells : List (Option ℚ)) : List ℚ := cells.filterMap id

/-- Pandas `Series.std(ddof=0)` with its default `skipna`: `NaN` when no value
is present; `sqrtA` is the float square root. -/
def colStd (sqrtA : ℚ → ℚ) (rows : List Row) (j : Nat) : Option ℚ :=
  let v := someVals (colCells rows j)
  if v.isEmpty then none else some (sqrtA (popVar v))

/-- Embeds `inverse_vol_weights` (portfolio_constructor.py lines 19-31):
inverse of the trailing-window return volatility, zeroed where the volatility
is zero or undefined, normalized; equal weight when every inverse is zero. -/
def inverse_vol_weights (sqrtA : ℚ → ℚ) (p : Panel) (lookback_days : Nat := 63)
    (min_weight : ℚ := 0) : List (Sym × ℚ) :=
  let ret := compute_returns p
  let recent := takeLastPy lookback_days ret.rows
  let inv : List ℚ := (List.range p.syms.length).map (fun j =>
    match colStd sqrtA recent j with
    | some v => if v = 0 then 0 else 1 / v
    | none => 0)
  if inv.sum = 0 then equal_weight_weights p.syms
  else
    let w := inv.map (· / inv.sum)
    let w2 := if 0 < min_weight then
        let wc := w.map (fun x => max min_weight x)
        wc.map (· / wc.sum)
      else w
    p.syms.zip w2

/-! ## Confidence, expected returns, covariance, optimizer (`optimizer_mpt.py`) -/

/-- Embeds `cross_sectional_z` (optimizer_mpt.py lines 19-24); the zero test
on the standard deviation guards the division (`ℚ` has no `NaN`, so the
`isnan` branch collapses into the zero test). -/
def cross_sectional_z (sqrtA : ℚ → ℚ) (l : List ℚ) : List ℚ :=
  let mu := meanQ l
  let sd := sqrtA (popVar l)
  if sd = 0 then l.map (fun _ => 0)
  else l.map (fun x => (x - mu) / sd)

/-- One row of the fundamentals table: the symbol plus the `roe` and `roa`
columns after `pd.to_numeric(..., errors="coerce")`; `none` is a missing or
non-numeric entry. -/
structure FundRow where
  symbol : Sym
  roe : Option ℚ
  roa : Option ℚ
deriving DecidableEq

/-- Embeds `wassim_confidence` (optimizer_mpt.py lines 27-44) on its primary
(scipy-present) path: coerce `roe`/`roa`, `fillna(0.0)`, z-score each
cross-sectionally, sum, map through `norm.cdf` (oracle `cdfA`), clip to
`[0,1]`. -/
def wassim_confidence (sqrtA cdfA : ℚ → ℚ) (rows : List FundRow) : List (Sym × ℚ) :=
  let roe := rows.map (fun r => r.roe.getD 0)
  let roa := rows.map (fun r => r.roa.getD 0)
  let z := List.zipWith (· + ·) (cross_sectional_z sqrtA roe) (cross_sectional_z sqrtA roa)
  List.zipWith (fun r x => (r.symbol, clipQ 0 1 (cdfA x))) rows z

/-- Forecast methods of `yugo_confidence_from_prices`. -/
inductive FMethod
  | persistence
  | ema
deriving DecidableEq

/-- Tail of `ewm(alpha, adjust=False).mean()` given the previous EMA value. -/
def emaFrom (alpha acc : ℚ) : List ℚ → List ℚ
  | [] => []
  | x :: t =>
    let e := alpha * x + (1 - alpha) * acc
    e :: emaFrom alpha e t

/-- Embeds `ewm(alpha=α, adjust=False).mean()`: the recursive EMA seeded with
the first observation. -/
def emaList (alpha : ℚ) (l : List ℚ) : List ℚ :=
  match l with
  | [] => []
  | x :: t => x :: emaFrom alpha x t

/-- Embeds `_mape` (optimizer_mpt.py lines 47-51) composed with the one-step
`shift(1)`: the mean over the defined terms of
`|actual_i - g_(i-1)| / max(|actual_i|, 1e-8)` (pandas `mean` skips the
undefined first term). -/
def mapeShift (p g : List ℚ) : ℚ :=
  meanQ (List.zipWith (fun a f => |a - f| / max |a| (1 / 100000000)) p.tail g)

/-- Average rank (pandas `rank(method="average", ascending=True)`) of `x`
within `l`. -/
def rankAvgAsc (l : List ℚ) (x : ℚ) : ℚ :=
  (l.countP (fun y => decide (y < x)) : ℚ) + ((l.countP (fun y => decide (y = x)) : ℚ) + 1) / 2

/-- Average rank with `ascending=False`. -/
def rankAvgDesc (l : List ℚ) (x : ℚ) : ℚ :=
  (l.countP (fun y => decide (x < y)) : ℚ) + ((l.countP (fun y => decide (y = x)) : ℚ) + 1) / 2

/-- Pandas `Series.median()` over the present values. -/
def medianQ (l : List ℚ) : ℚ :=
  let s := l.insertionSort (· ≤ ·)
  let n := s.length
  if n = 0 then 0
  else if n % 2 = 1 then s.getD (n / 2) 0
  else (s.getD (n / 2 - 1) 0 + s.getD (n / 2) 0) / 2

/-- Embeds `yugo_confidence_from_prices` (optimizer_mpt.py lines 54-83):
per-symbol MAPE of a naive one-step forecast over the trailing window, symbols
with too few samples get `NaN` later filled with the cross-sectional median,
ranks ascending rescaled so the lowest error maps to 1. -/
def yugo_confidence_from_prices (p : Panel) (lookback : Nat := 126)
    (method : FMethod := .ema) : List (Sym × ℚ) :=
  let prices := takeLastPy (lookback + 1) ((sortRows p.rows).filter (fun r => !rowAllNone r))
  let errs : List (Option ℚ) := (List.range p.syms.length).map (fun j =>
    let pc := someVals (colCells prices j)
    if pc.length < max 20 (lookback / 2) then none
    else
      let g := match method with
        | .persistence => pc
        | .ema => emaList (2 / 21) pc
      some (mapeShift pc g))
  if errs.all Option.isNone then p.syms.map (fun s => (s, 1 / 2))
  else
    let med := medianQ (someVals errs)
    let errF := errs.map (fun e => e.getD med)
    let n := errF.length
    List.zipWith (fun s e =>
      (s, clipQ 0 1 (1 - (rankAvgAsc errF e - 1) / max ((n : ℚ) - 1) 1))) p.syms errF

/-- String ordering used by Python `sorted` on symbol strings. -/
def strLeB (a b : Sym) : Bool := (compare a b).isLE

/-- Embeds `combine_confidence` (optimizer_mpt.py lines 86-91): union the two
index sets (Python `sorted(set(...))`), fill missing scores with 0.5, take the
weighted sum, clip to `[0,1]`. -/
def combine_confidence (cw cy : List (Sym × ℚ)) (wWassim wYugo : ℚ) : List (Sym × ℚ) :=
  let idx := ((cw.map Prod.fst ++ cy.map Prod.fst).dedup).insertionSort
    (fun a b => strLeB a b = true)
  idx.map (fun s => (s, clipQ 0 1 (wWassim * lookupD cw s (1 / 2) + wYugo * lookupD cy s (1 / 2))))

/-- Embeds `map_scores_to_expected_returns_from_confidence` (optimizer_mpt.py
lines 94-110); `compoundA` is the float map `a ↦ (1+a)^(1/252) - 1` applied at
the end. -/
def map_scores_to_expected_returns_from_confidence (compoundA : ℚ → ℚ)
    (conf : List (Sym × ℚ)) (ann_low : ℚ := 1 / 50) (ann_high : ℚ := 3 / 20) :
    List (Sym × ℚ) :=
  let vals := conf.map Prod.snd
  if vals.maximum = vals.minimum then conf.map (fun e => (e.1, compoundA ann_low))
  else
    let ranks := vals.map (rankAvgDesc vals)
    let rmax := ranks.maximum.getD 0
    let rmin := ranks.minimum.getD 0
    conf.map (fun e =>
      let scaled := (rmax - rankAvgDesc vals e.2) / max (rmax - rmin) (1 / 1000000000)
      (e.1, compoundA (ann_low + scaled * (ann_high - ann_low))))

/-- Covariance matrix entry: pairwise-complete population covariance (pandas
`DataFrame.cov(ddof=0)`), `NaN` when no complete pair exists. -/
def covCell (rows : List Row) (i j : Nat) : Option ℚ :=
  let pairs := rows.filterMap (fun r =>
    match r.2.getD i none, r.2.getD j none with
    | some a, some b => some (a, b)
    | _, _ => none)
  if pairs.isEmpty then none
  else
    let mx := meanQ (pairs.map Prod.fst)
    let my := meanQ (pairs.map Prod.snd)
    some ((pairs.map (fun q => (q.1 - mx) * (q.2 - my))).sum / pairs.length)

/-- Embeds `sample_covariance` (optimizer_mpt.py lines 113-115):
`returns.dropna(how="all").iloc[-lookback:].cov(ddof=0)` as the list of matrix
rows over the return panel's columns. -/
def sample_covariance (ret : Panel) (lookback : Nat := 252) : List (List (Option ℚ)) :=
  let r := takeLastPy lookback (ret.rows.filter (fun row => !rowAllNone row))
  (List.range ret.syms.length).map (fun i =>
    (List.range ret.syms.length).map (fun j => covCell r i j))

/-- External numeric primitives.  `pinvA` models `np.linalg.pinv` (`none` is a
raised `LinAlgError`); `solverA` models `scipy.optimize.minimize(...,
method="SLSQP")` applied to the negated Sharpe ratio with the sum constraint
and box bounds (`some x` is `res.x` when `res.success`, `none` a failed or
raising solve). -/
structure Oracles where
  sqrtA : ℚ → ℚ
  cdfA : ℚ → ℚ
  compoundA : ℚ → ℚ
  pinvA : List (List (Option ℚ)) → Option (List (List ℚ))
  solverA : List ℚ → List (List (Option ℚ)) → ℚ → Option (List ℚ)

/-- Embeds `tangency_unconstrained` (optimizer_mpt.py lines 118-127):
`w = pinv(Sigma) @ mu`, clip negatives to zero, fall back to all-ones when the
clipped vector sums to zero, then normalize.  `none` propagates a
`LinAlgError` from `pinv` (or a shape mismatch, on which pandas would raise
while building the output series). -/
def tangency_unconstrained (pinvA : List (List (Option ℚ)) → Option (List (List ℚ)))
    (mu : List (Sym × ℚ)) (cov : List (List (Option ℚ))) : Option (List (Sym × ℚ)) :=
  match pinvA cov with
  | none => none
  | some m =>
    if m.length = mu.length then
      let muv := mu.map Prod.snd
      let w0 := m.map (fun rowm => (List.zipWith (· * ·) rowm muv).sum)
      let w1 := w0.map (fun x => max x 0)
      let w2 := if w1.sum = 0 then w1.map (fun _ => (1 : ℚ)) else w1
      some (List.zipWith (fun e x => (e.1, x / w2.sum)) mu w2)
    else none

/-- Embeds `max_sharpe_long_only` (optimizer_mpt.py lines 130-158): on solver
success clip `res.x` to `[0, max_weight]` and renormalize; otherwise (solver
failure or any exception) fall back to the unconstrained tangency
portfolio. -/
def max_sharpe_long_only (oc : Oracles) (mu : List (Sym × ℚ))
    (cov : List (List (Option ℚ))) (max_weight : ℚ := 1 / 5) : Option (List (Sym × ℚ)) :=
  match oc.solverA (mu.map Prod.snd) cov max_weight with
  | some x =>
    if x.length = mu.length then
      let w := x.map (clipQ 0 max_weight)
      some (List.zipWith (fun e v => (e.1, v / w.sum)) mu w)
    else tangency_unconstrained oc.pinvA mu cov
  | none => tangency_unconstrained oc.pinvA mu cov

/-! ## Rolling walk-forward optimizer (`rolling_portfolio_optimizer.py`) -/

/-- Strategies dispatched inside the rebalance loop. -/
inductive Strategy
  | equal
  | invvol
  | mpt
deriving DecidableEq

/-- Weights computed at one rebalance (rolling_portfolio_optimizer.py lines
144-190, the body of the per-date `try`); `none` models a raised exception
(propagated from a failing tangency fallback, or the zero division on an empty
symbol list), which the caller turns into a skip. -/
def rebalanceWeights (oc : Oracles) (strategy : Strategy)
    (fundamentals : Option (List FundRow)) (symbols : List Sym)
    (max_weight wWassim wYugo ann_low ann_high : ℚ) (train : List Row) :
    Option (List (Sym × ℚ)) :=
  match strategy with
  | .equal => some (equal_weight_weights symbols)
  | .invvol => some (inverse_vol_weights oc.sqrtA ⟨symbols, train⟩ (min 63 (train.length / 4)))
  | .mpt =>
    let cWassim := match fundamentals with
      | none => symbols.map (fun s => (s, (1 : ℚ) / 2))
      | some f => wassim_confidence oc.sqrtA oc.cdfA f
    let cYugo := yugo_confidence_from_prices ⟨symbols, train⟩ (min 126 (train.length / 2)) .ema
    let c0 := combine_confidence cWassim cYugo wWassim wYugo
    let c := symbols.map (fun s => (s, lookupD c0 s (1 / 2)))
    let mu := map_scores_to_expected_returns_from_confidence oc.compoundA c ann_low ann_high
    let returns := compute_returns ⟨symbols, train⟩
    let sigma := sample_covariance returns (min 252 returns.rows.length)
    let common := mu.map Prod.fst
    if common.length < 2 then some (inverse_vol_weights oc.sqrtA ⟨symbols, train⟩)
    else
      match max_sharpe_long_only oc mu sigma max_weight with
      | none => none
      | some w0 =>
        let w1 := symbols.map (fun s => (s, lookupD w0 s 0))
        let ssum := (w1.map Prod.snd).sum
        if 0 < ssum then some (w1.map (fun e => (e.1, e.2 / ssum)))
        else if symbols.length = 0 then none
        else some (symbols.map (fun s => (s, 1 / (symbols.length : ℚ))))

/-- Count of rows with date at most `d`. -/
def countLE (rows : List Row) (d : Int) : Nat := rows.countP (fun r => decide (r.1 ≤ d))

/-- Training slice at rebalance date `d` (rolling_portfolio_optimizer.py lines
122-137).  With a (truthy, i.e. non-zero) lookback, `get_loc` or
`get_indexer(..., method="ffill")` locate on the sorted panel the last row
with date at most `d`, i.e. position `countLE - 1`, and the slice keeps the
last `lookback` rows up to it; `none` is the `train_end_idx == -1` skip.
Otherwise `price_df.loc[:d]` keeps every row with date at most `d`. -/
def trainData (sorted : List Row) (lookback : Option Nat) (d : Int) : Option (List Row) :=
  match lookback with
  | some L =>
    if L ≠ 0 then
      let c := countLE sorted d
      if c = 0 then none
      else some ((sorted.take c).drop (c - L))
    else some (sorted.filter (fun r => decide (r.1 ≤ d)))
  | none => some (sorted.filter (fun r => decide (r.1 ≤ d)))

/-- Rebalance audit-log entry (the `rebal_history` dicts). -/
structure RebalEvent where
  date : Int
  trainSize : Nat
  weights : List (Sym × ℚ)
deriving DecidableEq

/-- Pair each list element with its successor, `none` for the last one. -/
def withNext : List Int → List (Int × Option Int)
  | [] => []
  | [a] => [(a, none)]
  | a :: b :: t => (a, some b) :: withNext (b :: t)

/-- Mask `(index >= rebal_date) & (index < next_rebal_date)`, with no upper
bound for the last rebalance. -/
def inWindowB (d : Int) (next : Option Int) (t : Int) : Bool :=
  decide (d ≤ t) && (match next with
    | some nd => decide (t < nd)
    | none => true)

/-- One iteration of the rebalance loop (rolling_portfolio_optimizer.py lines
116-215): build the training slice, skip when it is missing or too short or
when the optimization raises, otherwise append the audit entry and assign the
weight row on `[d, next)`. -/
def rollingStep (oc : Oracles) (strategy : Strategy)
    (fundamentals : Option (List FundRow)) (symbols : List Sym) (sorted : List Row)
    (min_train_days : Nat) (lookback : Option Nat)
    (max_weight wWassim wYugo ann_low ann_high : ℚ)
    (acc : (Int → Option (List ℚ)) × List RebalEvent) (it : Int × Option Int) :
    (Int → Option (List ℚ)) × List RebalEvent :=
  match trainData sorted lookback it.1 with
  | none => acc
  | some train =>
    if train.length < min_train_days / 2 then acc
    else
      match rebalanceWeights oc strategy fundamentals symbols max_weight wWassim wYugo
          ann_low ann_high train with
      | none => acc
      | some w =>
        let row := symbols.map (fun s => lookupD w s 0)
        (fun t => if inWindowB it.1 it.2 t then some row else acc.1 t,
         acc.2 ++ [⟨it.1, train.length, w⟩])

/-- Result of the rolling optimizer: the materialized weights schedule (one
row per sorted panel date, `fillna(0.0)` applied) plus the rebalance audit
log stored in `attrs`. -/
structure RollingResult where
  schedule : List (Int × List ℚ)
  history : List RebalEvent
deriving DecidableEq

/-- Candidate rebalance dates (rolling_portfolio_optimizer.py lines 92-95):
`get_rebalancing_dates` filtered to the dates with at least `min_train_days`
days of history since the first (sorted) panel date. -/
def rebalCandidates (p : Panel) (freq : Freq) (min_train_days : Nat) : List Int :=
  let sorted := sortRows p.rows
  let first := (sorted.map Prod.fst).headD 0
  (get_rebalancing_dates (sorted.map Prod.fst) freq).filter
    (fun d => decide ((min_train_days : Int) ≤ d - first))

/-- Embeds `rolling_optimize_weights` (rolling_portfolio_optimizer.py lines
50-229).  Candidate rebalance dates come from `rebalCandidates` (`none` is the
`ValueError` when none survive), and the loop assigns each successful
rebalance's weights on `[d_i, d_(i+1))`; unassigned rows are zero-filled at
the end. -/
def rolling_optimize_weights (oc : Oracles) (p : Panel)
    (fundamentals : Option (List FundRow)) (freq : Freq) (strategy : Strategy)
    (min_train_days : Nat := 252) (lookback : Option Nat := none)
    (max_weight : ℚ := 1 / 5) (wWassim : ℚ := 1 / 2) (wYugo : ℚ := 1 / 2)
    (ann_low : ℚ := 1 / 50) (ann_high : ℚ := 3 / 20) : Option RollingResult :=
  let sorted := sortRows p.rows
  let symbols := p.syms
  let rebal := rebalCandidates p freq min_train_days
  if rebal.isEmpty then none
  else
    let res := (withNext rebal).foldl
      (rollingStep oc strategy fundamentals symbols sorted min_train_days lookback
        max_weight wWassim wYugo ann_low ann_high)
      (fun _ => none, [])
    some ⟨sorted.map (fun r => (r.1, (res.1 r.1).getD (symbols.map (fun _ => 0)))), res.2⟩

/-! ## Backtest engine (`backtester.py`) -/

/-- Per-column forward fill (`ffill`) along rows, given the values carried in
from above. -/
def ffillFrom (prev : List (Option ℚ)) : List Row → List Row
  | [] => []
  | r :: t =>
    let merged := List.zipWith (fun pv cv => cv.orElse (fun _ => pv)) prev r.2
    (r.1, merged) :: ffillFrom merged t

/-- Pandas `fillna(0.0)` on a whole frame. -/
def fillRows0 (rows : List Row) : List (Int × List ℚ) :=
  rows.map (fun r => (r.1, r.2.map (fun c => c.getD 0)))

/-- Embeds `rebalance_weights` (backtester.py lines 27-51): place the target
weights at every rebalancing label that is present in the index, forward fill
and zero-fill the rest. -/
def rebalance_weights (target : List (Sym × ℚ)) (index : List Int) (f : Freq) : Panel :=
  let rdates := get_rebalancing_dates index f
  let rows : List Row := index.map (fun d =>
    (d, if rdates.contains d then target.map (fun e => some e.2)
        else target.map (fun _ => (none : Option ℚ))))
  ⟨target.map Prod.fst,
    (fillRows0 (ffillFrom (target.map (fun _ => none)) rows)).map
      (fun r => (r.1, r.2.map some))⟩

/-- Arguments of one `run_backtest` call. -/
structure BtArgs where
  p : Panel
  ws : Option Panel
  tw : Option (List (Sym × ℚ))
  freq : Freq
  cash : ℚ
  cost : ℚ

/-- The weights-schedule frame entering line 79: the explicit schedule, or the
one materialized from the target weights (backtester.py lines 76-77). -/
def btSchedule (a : BtArgs) : Panel :=
  match a.ws with
  | some w => w
  | none =>
    match a.tw with
    | some t => rebalance_weights t (a.p.rows.map Prod.fst) a.freq
    | none => ⟨[], []⟩

/-- Row of the schedule at date label `d` (the `reindex` lookup; on duplicate
labels pandas raises, here the first match is taken). -/
def schedRowAt (sch : Panel) (d : Int) : List (Option ℚ) :=
  match sch.rows.find? (fun r => r.1 == d) with
  | some r => r.2
  | none => sch.syms.map (fun _ => none)

/-- Line 79, `weights_schedule.reindex(price_df.index).ffill().fillna(0.0)`,
positionally over the price index in its given order. -/
def btWFull (a : BtArgs) : List (Int × List ℚ) :=
  fillRows0 (ffillFrom ((btSchedule a).syms.map (fun _ => none))
    ((a.p.rows.map Prod.fst).map (fun d => (d, schedRowAt (btSchedule a) d))))

/-- The overlapping columns, `list(set(weights) & set(returns))` (lines
82-86).  CPython's set order is unspecified; every quantity derived below is
invariant under column order, and the price panel's order is used here. -/
def btCommon (a : BtArgs) : List Sym :=
  a.p.syms.filter (fun s => (btSchedule a).syms.contains s)

/-- Cell of the forward-filled schedule at price row `i`, column label `s`. -/
def btW (a : BtArgs) (i : Nat) (s : Sym) : ℚ :=
  ((btWFull a).getD i (0, [])).2.getD ((btSchedule a).syms.indexOf s) 0

/-- Row sum over the overlapping columns (line 89). -/
def btRowSum (a : BtArgs) (i : Nat) : ℚ := ((btCommon a).map (btW a i)).sum

/-- Row-normalized weight (lines 89-90): rows summing to zero stay zero
(`replace(0.0, nan)` followed by `fillna(0.0)`). -/
def btNorm (a : BtArgs) (i : Nat) (s : Sym) : ℚ :=
  if btRowSum a i = 0 then 0 else btW a i s / btRowSum a i

/-- Per-period total turnover, `norm_weights.diff().abs().fillna(0.0)` summed
across columns (line 93-94); the first row of `diff` is `NaN`, filled to 0. -/
def btTurnover (a : BtArgs) (i : Nat) : ℚ :=
  match i with
  | 0 => 0
  | Nat.succ j => ((btCommon a).map (fun s => |btNorm a i s - btNorm a j s|)).sum

/-- Transaction cost of period `i` (line 94), floored at zero. -/
def btCost (a : BtArgs) (i : Nat) : ℚ := max 0 (btTurnover a i * (a.cost / 10000))

/-- Return cell used by the backtest: `compute_returns` reindexed onto the
price index and zero-filled (lines 73-74). -/
def btRet (a : BtArgs) (i : Nat) (s : Sym) : ℚ :=
  match (compute_returns a.p).rows.find? (fun r => r.1 == (a.p.rows.getD i (0, [])).1) with
  | some r => (r.2.getD (a.p.syms.indexOf s) none).getD 0
  | none => 0

/-- Gross portfolio return of period `i` (line 97): previous period's
normalized weights (`shift(1).fillna(0.0)`) times the period's returns. -/
def btGross (a : BtArgs) (i : Nat) : ℚ :=
  match i with
  | 0 => 0
  | Nat.succ j => ((btCommon a).map (fun s => btNorm a j s * btRet a i s)).sum

/-- Net portfolio return of period `i` (line 98). -/
def btNet (a : BtArgs) (i : Nat) : ℚ := btGross a i - btCost a i + a.cash

/-- Pandas `cumprod` with the accumulated product carried in. -/
def cumprodFrom (acc : ℚ) : List ℚ → List ℚ
  | [] => []
  | x :: t => (acc * x) :: cumprodFrom (acc * x) t

/-- The equity curve, `(1.0 + port_ret_net).cumprod()` (line 100). -/
def btEquity (a : BtArgs) : List ℚ :=
  cumprodFrom 1 ((List.range a.p.rows.length).map (fun i => 1 + btNet a i))

/-- The fields of `BacktestResult` the claims are about.  The `metrics` field
(`compute_metrics`, lines 106-125) is a pure function of these two through
float `sqrt`/powers and is referenced by no claim, so it is not carried. -/
structure BacktestResult where
  equity_curve : List ℚ
  weights_history : List (Int × List ℚ)
deriving DecidableEq

/-- Embeds `run_backtest` (backtester.py lines 54-103).  The two `.error`
outcomes are the entry `assert` and the `ValueError` on an empty column
overlap; everything else returns a complete result. -/
def run_backtest (p : Panel) (ws : Option Panel) (tw : Option (List (Sym × ℚ)))
    (freq : Freq := .M) (cash : ℚ := 0) (cost : ℚ := 0) : Except String BacktestResult :=
  if ws.isNone && tw.isNone then .error "Provide weights_schedule or target_weights"
  else
    let a : BtArgs := ⟨p, ws, tw, freq, cash, cost⟩
    if (btCommon a).isEmpty then .error "No overlapping columns between weights and returns"
    else
      .ok ⟨btEquity a,
        (List.range p.rows.length).map (fun i =>
          ((p.rows.getD i (0, [])).1, (btCommon a).map (btNorm a i)))⟩

/-! ## Spec-side predicates and auxiliary definitions used in statements -/

/-- Spec-side weight-vector contract: the series covers exactly the requested
names, every weight is non-negative, and the weights sum to one. -/
def weightsOK (w : List (Sym × ℚ)) (names : List Sym) : Prop :=
  w.map Prod.fst = names ∧ (∀ e ∈ w, 0 ≤ e.2) ∧ (w.map Prod.snd).sum = 1

/-- The contract lifted over an optional result (`False` on a raised path). -/
def weightsOKOpt (w? : Option (List (Sym × ℚ))) (names : List Sym) : Prop :=
  match w? with
  | none => False
  | some w => weightsOK w names

/-- The rebalance at candidate index `k` is skipped: its training slice is
missing or too short, or the per-date optimization raises. -/
def skippedAt (oc : Oracles) (p : Panel) (fundamentals : Option (List FundRow))
    (freq : Freq) (strategy : Strategy) (min_train_days : Nat) (lookback : Option Nat)
    (max_weight wWassim wYugo ann_low ann_high : ℚ) (k : Nat) : Prop :=
  match trainData (sortRows p.rows) lookback ((rebalCandidates p freq min_train_days).getD k 0) with
  | none => True
  | some train =>
    train.length < min_train_days / 2 ∨
      rebalanceWeights oc strategy fundamentals p.syms max_weight wWassim wYugo
        ann_low ann_high train = none

/-- Spec-side relation for the no-look-ahead statement: two panel rows carry
the same date, and agree entirely whenever that date is at most `D` (rows
after `D` may have been mutated). -/
def agreeUpTo (D : Int) (a b : Row) : Prop :=
  a.1 = b.1 ∧ (a.1 ≤ D → a.2 = b.2)

/-- Zero-substitution on a fundamentals table: every missing `roe`/`roa`
becomes an explicit `0.0`. -/
def zeroFillFunds (rows : List FundRow) : List FundRow :=
  rows.map (fun r => ⟨r.symbol, some (r.roe.getD 0), some (r.roa.getD 0)⟩)

/-! ## Generic list lemmas -/

lemma getD_map_range {α : Type} [Inhabited α] (f : Nat → α) (d : α) {n i : Nat} (h : i < n) :
    ((List.range n).map f).getD i d = f i := by
  rw [List.getD_eq_getElem ((List.range n).map f) d (by simpa using h)]
  simp

lemma map_getD_range {α : Type} (l : List α) (d : α) :
    (List.range l.length).map (fun i => l.getD i d) = l := by
  apply List.ext_getElem
  · simp
  · intro n h1 h2
    simp [List.getD_eq_getElem?_getD, List.getElem?_eq_getElem, h2]

lemma cumprodFrom_length (acc : ℚ) (l : List ℚ) : (cumprodFrom acc l).length = l.length := by
  induction l generalizing acc <;> simp [cumprodFrom, *]

lemma cumprodFrom_getD (l : List ℚ) (acc : ℚ) (i : Nat) (h : i < l.length) :
    (cumprodFrom acc l).getD i 0 = acc * (l.take (i + 1)).prod := by
  induction l generalizing acc i with
  | nil => simp at h
  | cons x t ih =>
    cases i with
    | zero => simp [cumprodFrom]
    | succ j =>
      have hj : j < t.length := by simpa using h
      simp only [cumprodFrom, List.getD_cons_succ, List.take_succ_cons, List.prod_cons]
      rw [ih (acc * x) j hj]
      ring

lemma sum_map_div (l : List ℚ) (S : ℚ) : (l.map (fun x => x / S)).sum = l.sum / S := by
  induction l with
  | nil => simp
  | cons x t ih => simp [ih, add_div]

lemma prod_range_nonneg (f : Nat → ℚ) (n : Nat) (h : ∀ j < n, 0 ≤ f j) :
    0 ≤ ((List.range n).map f).prod := by
  induction n with
  | zero => simp
  | succ m ih =>
    rw [List.range_succ, List.map_append, List.prod_append]
    have h1 : 0 ≤ ((List.range m).map f).prod := ih (fun j hj => h j (Nat.lt_succ_of_lt hj))
    have h2 : 0 ≤ f m := h m (Nat.lt_succ_self m)
    simpa using mul_nonneg h1 h2

lemma prod_range_le (f g : Nat → ℚ) (n : Nat) (hg : ∀ j < n, 0 ≤ g j)
    (hle : ∀ j < n, g j ≤ f j) :
    ((List.range n).map g).prod ≤ ((List.range n).map f).prod := by
  induction n with
  | zero => simp
  | succ m ih =>
    rw [List.range_succ, List.map_append, List.prod_append]
    have ihm := ih (fun j hj => hg j (Nat.lt_succ_of_lt hj))
      (fun j hj => hle j (Nat.lt_succ_of_lt hj))
    have hgn : 0 ≤ g m := hg m (Nat.lt_succ_self m)
    have hgp : 0 ≤ ((List.range m).map g).prod :=
      prod_range_nonneg g m (fun j hj => hg j (Nat.lt_succ_of_lt hj))
    have hfp : 0 ≤ ((List.range m).map f).prod :=
      prod_range_nonneg f m (fun j hj =>
        le_trans (hg j (Nat.lt_succ_of_lt hj)) (hle j (Nat.lt_succ_of_lt hj)))
    simpa using mul_le_mul ihm (hle m (Nat.lt_succ_self m)) hgn hfp

lemma map_fst_zipWith_pair {β : Type} (f : (Sym × ℚ) → β → ℚ) (l1 : List (Sym × ℚ))
    (l2 : List β) (h : l1.length = l2.length) :
    (List.zipWith (fun e v => (e.1, f e v)) l1 l2).map Prod.fst = l1.map Prod.fst := by
  induction l1 generalizing l2 with
  | nil => simp
  | cons a t ih =>
    cases l2 with
    | nil => simp at h
    | cons b u => simpa using ih u (by simpa using h)

lemma map_snd_zipWith_pair {β : Type} (f : (Sym × ℚ) → β → ℚ) (l1 : List (Sym × ℚ))
    (l2 : List β) :
    (List.zipWith (fun e v => (e.1, f e v)) l1 l2).map Prod.snd = List.zipWith f l1 l2 := by
  induction l1 generalizing l2 with
  | nil => simp
  | cons a t ih =>
    cases l2 with
    | nil => simp
    | cons b u => simpa using ih u

lemma zipWith_const_snd {α β : Type} (g : β → γ) (l1 : List α) (l2 : List β)
    (h : l1.length = l2.length) :
    List.zipWith (fun _ v => g v) l1 l2 = l2.map g := by
  induction l1 generalizing l2 with
  | nil => cases l2 with
    | nil => simp
    | cons b u => simp at h
  | cons a t ih =>
    cases l2 with
    | nil => simp at h
    | cons b u => simpa using ih u (by simpa using h)

lemma popVar_nonneg (l : List ℚ) : 0 ≤ popVar l := by
  unfold popVar
  apply div_nonneg
  · exact List.sum_nonneg (by
      intro x hx
      obtain ⟨y, _, rfl⟩ := List.mem_map.mp hx
      positivity)
  · positivity

/-! ## Claim C5 -/

/-- Claim C5 (code bug): on the trading index [2023-09-28, 2023-09-29] with
monthly frequency, `get_rebalancing_dates` returns the calendar month end
2023-09-30 (a Saturday), which is not a member of the original index —
contrary to the claim and to the function's own docstring, the resampled
period-end labels need not be trading dates. -/
theorem C5_rebal_date_not_in_index :
    get_rebalancing_dates [daysFromCivil 2023 9 28, daysFromCivil 2023 9 29] .M
        = [daysFromCivil 2023 9 30] ∧
      daysFromCivil 2023 9 30 ∉ [daysFromCivil 2023 9 28, daysFromCivil 2023 9 29] := by
  constructor
  · decide
  · decide

/-! ## Claim C6 -/

/-- Claim C6 counterexample: `compute_returns` has no raising path at all
(there is no `DataError` anywhere in the repository); on the empty panel it
returns the empty frame instead of failing. -/
theorem C6_empty_panel_returns_normally :
    compute_returns ⟨["A"], []⟩ = ⟨["A"], []⟩ := by
  decide

/-- Claim C6 (amended): `compute_returns` never raises; on a panel with at
least one column, aligned rows and no missing price it sorts by date, computes
the per-asset percentage change and drops exactly the first (all-undefined)
row. -/
theorem C6_amended_compute_returns (p : Panel)
    (hw : ∀ r ∈ p.rows, r.2.length = p.syms.length) (hs : p.syms ≠ [])
    (hall : ∀ r ∈ p.rows, ∀ c ∈ r.2, c ≠ none) :
    (compute_returns p).rows
      = List.zipWith (fun prev cur => (cur.1, List.zipWith pctCell prev.2 cur.2))
          (sortRows p.rows) (sortRows p.rows).tail := by
  have hperm : ∀ r ∈ sortRows p.rows, r ∈ p.rows := by
    intro r hr
    exact (List.perm_insertionSort rowLe p.rows).mem_iff.mp hr
  unfold compute_returns
  cases hsp : sortRows p.rows with
  | nil => simp
  | cons r0 rest =>
    simp only
    have hfirst : rowAllNone (r0.1, r0.2.map (fun _ => (none : Option ℚ))) = true := by
      simp [rowAllNone, List.all_eq_true]
    rw [List.filter_cons]
    simp only [hfirst, Bool.not_true, Bool.false_eq_true, if_false]
    apply List.filter_eq_self.mpr
    intro x hx
    rw [List.mem_iff_getElem] at hx
    obtain ⟨k, hk, hxk⟩ := hx
    have hkall : k < rest.length := by
      simpa [List.length_zipWith] using hk
    have hk1 : k < (r0 :: rest).length := by
      simp only [List.length_cons]
      omega
    have hkt : k < (r0 :: rest).tail.length := by simpa using hkall
    rw [List.getElem_zipWith] at hxk
    set a := (r0 :: rest)[k] with ha
    set b := (r0 :: rest).tail[k] with hb
    have hamem : a ∈ p.rows := by
      apply hperm
      rw [hsp]
      exact List.getElem_mem hk1
    have hbmem : b ∈ p.rows := by
      apply hperm
      rw [hsp]
      exact List.mem_of_mem_tail (List.getElem_mem hkt)
    have hla : 0 < a.2.length := by
      rw [hw a hamem]
      exact List.length_pos.mpr hs
    have hlb : 0 < b.2.length := by
      rw [hw b hbmem]
      exact List.length_pos.mpr hs
    have hzl : 0 < (List.zipWith pctCell a.2 b.2).length := by
      simp [List.length_zipWith]; omega
    have hcell : (List.zipWith pctCell a.2 b.2)[0] =
        pctCell a.2[0] b.2[0] := List.getElem_zipWith
    have hsa : a.2[0] ≠ none := hall a hamem _ (List.getElem_mem hla)
    have hsb : b.2[0] ≠ none := hall b hbmem _ (List.getElem_mem hlb)
    rw [← hxk]
    simp only [rowAllNone, Bool.not_eq_true']
    refine List.all_eq_false.mpr ?_
    refine ⟨(List.zipWith pctCell a.2 b.2)[0],
      List.getElem_mem hzl, ?_⟩
    rw [hcell]
    obtain ⟨va, hva⟩ := Option.ne_none_iff_exists.mp hsa
    obtain ⟨vb, hvb⟩ := Option.ne_none_iff_exists.mp hsb
    rw [← hva, ← hvb]
    simp [pctCell]

/-- Witness for C6: the amended statement instantiated on a concrete unsorted
full panel. -/
theorem C6_amended_compute_returns_witness :
    (compute_returns ⟨["A"], [(1, [some 2]), (0, [some 1])]⟩).rows
      = List.zipWith (fun prev cur => (cur.1, List.zipWith pctCell prev.2 cur.2))
          (sortRows [(1, [some 2]), (0, [some 1])])
          (sortRows [(1, [some 2]), (0, [some 1])]).tail :=
  C6_amended_compute_returns ⟨["A"], [(1, [some 2]), (0, [some 1])]⟩
    (by decide) (by decide) (by decide)

/-! ## Claim C2 -/

lemma sum_map_constQ {α : Type} (l : List α) (c : ℚ) :
    (l.map (fun _ => c)).sum = l.length * c := by
  induction l with
  | nil => simp
  | cons x t ih =>
    simp only [List.map_cons, List.sum_cons, ih, List.length_cons]
    push_cast
    ring

lemma snd_mem_zipWith_pair {β : Type} (f : β → ℚ) (l1 : List (Sym × ℚ)) (l2 : List β)
    (y : Sym × ℚ) (hy : y ∈ List.zipWith (fun e x => (e.1, f x)) l1 l2) :
    ∃ x ∈ l2, y.2 = f x := by
  induction l1 generalizing l2 with
  | nil => simp at hy
  | cons a t ih =>
    cases l2 with
    | nil => simp at hy
    | cons b u =>
      simp only [List.zipWith_cons_cons, List.mem_cons] at hy
      rcases hy with h | h
      · exact ⟨b, List.mem_cons_self b u, by rw [h]⟩
      · obtain ⟨x, hx, hfx⟩ := ih u h
        exact ⟨x, List.mem_cons_of_mem b hx, hfx⟩

lemma equal_weight_ok (tickers : List Sym) (ht : tickers ≠ []) :
    weightsOK (equal_weight_weights tickers) tickers := by
  have hn : 0 < tickers.length := List.length_pos.mpr ht
  unfold weightsOK equal_weight_weights
  simp only [hn, if_pos]
  refine ⟨?_, ?_, ?_⟩
  · rw [List.map_map]
    exact List.map_id tickers
  · intro e he
    obtain ⟨t, _, rfl⟩ := List.mem_map.mp he
    positivity
  · rw [List.map_map]
    have hc : (Prod.snd ∘ fun t : Sym => (t, (1 : ℚ) / tickers.length))
        = fun _ => (1 : ℚ) / tickers.length := rfl
    rw [hc, sum_map_constQ]
    rw [mul_one_div, div_self (by positivity)]

lemma inverse_vol_ok (sqrtA : ℚ → ℚ) (hsq : ∀ q, 0 ≤ q → 0 ≤ sqrtA q) (p : Panel)
    (hp : p.syms ≠ []) (lb : Nat) :
    weightsOK (inverse_vol_weights sqrtA p lb 0) p.syms := by
  unfold inverse_vol_weights
  simp only
  set inv : List ℚ := (List.range p.syms.length).map (fun j =>
    match colStd sqrtA (takeLastPy lb (compute_returns p).rows) j with
    | some v => if v = 0 then 0 else 1 / v
    | none => 0) with hinv
  have hlen : inv.length = p.syms.length := by simp [hinv]
  have hnn : ∀ y ∈ inv, 0 ≤ y := by
    intro y hy
    rw [hinv] at hy
    obtain ⟨j, _, rfl⟩ := List.mem_map.mp hy
    cases hc : colStd sqrtA (takeLastPy lb (compute_returns p).rows) j with
    | none => simp
    | some v =>
      simp only
      split
      · exact le_refl 0
      · rename_i hv
        have hv0 : 0 ≤ v := by
          simp only [colStd] at hc
          split at hc
          · exact absurd hc (by simp)
          · have heq := Option.some_inj.mp hc
            rw [← heq]
            exact hsq _ (popVar_nonneg _)
        have : 0 < v := lt_of_le_of_ne hv0 (Ne.symm hv)
        positivity
  split
  · exact equal_weight_ok p.syms hp
  · rename_i hS
    have hSpos : 0 < inv.sum := lt_of_le_of_ne (List.sum_nonneg hnn) (Ne.symm hS)
    simp only [lt_irrefl, if_false, ite_false]
    have hmaplen : (inv.map (· / inv.sum)).length = p.syms.length := by simp [hlen]
    refine ⟨?_, ?_, ?_⟩
    · exact List.map_fst_zip _ _ (by rw [hmaplen])
    · intro e he
      have h2 := (List.of_mem_zip he).2
      obtain ⟨y, hy, hrfl⟩ := List.mem_map.mp h2
      rw [← hrfl]
      exact div_nonneg (hnn y hy) (le_of_lt hSpos)
    · rw [List.map_snd_zip _ _ (by rw [hmaplen])]
      rw [sum_map_div, div_self (ne_of_gt hSpos)]

lemma tangency_ok (pinvA : List (List (Option ℚ)) → Option (List (List ℚ)))
    (mu : List (Sym × ℚ)) (cov : List (List (Option ℚ))) (m : List (List ℚ))
    (hpinv : pinvA cov = some m) (hm : m.length = mu.length) (hmu : mu ≠ []) :
    weightsOKOpt (tangency_unconstrained pinvA mu cov) (mu.map Prod.fst) := by
  unfold tangency_unconstrained weightsOKOpt
  rw [hpinv]
  simp only [hm, if_pos]
  set muv := mu.map Prod.snd
  set w0 := m.map (fun rowm => (List.zipWith (· * ·) rowm muv).sum) with hw0
  set w1 := w0.map (fun x => max x 0) with hw1
  have hw1nn : ∀ y ∈ w1, 0 ≤ y := by
    intro y hy
    obtain ⟨x, _, rfl⟩ := List.mem_map.mp hy
    exact le_max_right x 0
  have hw1len : w1.length = mu.length := by simp [hw1, hw0, hm]
  set w2 := if w1.sum = 0 then w1.map (fun _ => (1 : ℚ)) else w1 with hw2
  have hw2len : w2.length = mu.length := by
    rw [hw2]
    split <;> simp [hw1len]
  have hw2nn : ∀ y ∈ w2, 0 ≤ y := by
    intro y hy
    rw [hw2] at hy
    split at hy
    · obtain ⟨x, _, rfl⟩ := List.mem_map.mp hy
      norm_num
    · exact hw1nn y hy
  have hSpos : 0 < w2.sum := by
    rw [hw2]
    split
    · rename_i h0
      rw [sum_map_constQ, hw1len, mul_one]
      exact_mod_cast List.length_pos.mpr hmu
    · rename_i h0
      exact lt_of_le_of_ne (List.sum_nonneg hw1nn) (Ne.symm h0)
  refine ⟨?_, ?_, ?_⟩
  · exact map_fst_zipWith_pair (fun _ x => x / w2.sum) mu w2 hw2len.symm
  · intro e he
    obtain ⟨x, hx, hex⟩ := snd_mem_zipWith_pair (fun x => x / w2.sum) mu w2 e he
    rw [hex]
    exact div_nonneg (hw2nn x hx) (le_of_lt hSpos)
  · rw [map_snd_zipWith_pair (fun _ x => x / w2.sum) mu w2]
    rw [zipWith_const_snd (fun x => x / w2.sum) mu w2 hw2len.symm]
    rw [sum_map_div, div_self (ne_of_gt hSpos)]

/-- Claim C2 (amended): for every strategy the produced weight vector covers
exactly the requested assets, is non-negative and sums to one (given a
non-empty universe, a non-negative float square root, a well-shaped
pseudo-inverse and a solver output whose clipped sum is positive), and this
holds on both max-Sharpe fallback tiers; the per-component `max_weight` cap,
however, is only guaranteed on the successful constrained max-Sharpe path
(and there only when the clipped solver output sums to at least one) — not
for the equal-weight or inverse-volatility strategies nor for the fallback
tiers. -/
theorem C2_amended_weight_invariants
    (tickers : List Sym) (ht : tickers ≠ [])
    (sqrtA : ℚ → ℚ) (hsq : ∀ q, 0 ≤ q → 0 ≤ sqrtA q) (p : Panel) (hp : p.syms ≠ []) (lb : Nat)
    (pinvA : List (List (Option ℚ)) → Option (List (List ℚ)))
    (mu : List (Sym × ℚ)) (cov : List (List (Option ℚ))) (m : List (List ℚ))
    (hpinv : pinvA cov = some m) (hm : m.length = mu.length) (hmu : mu ≠ [])
    (oc : Oracles) (mu2 : List (Sym × ℚ)) (cov2 : List (List (Option ℚ))) (mw : ℚ)
    (x : List ℚ) (hsolve : oc.solverA (mu2.map Prod.snd) cov2 mw = some x)
    (hx : x.length = mu2.length) (hmw : 0 ≤ mw)
    (hpos : 0 < (x.map (clipQ 0 mw)).sum) :
    weightsOK (equal_weight_weights tickers) tickers
    ∧ weightsOK (inverse_vol_weights sqrtA p lb 0) p.syms
    ∧ weightsOKOpt (tangency_unconstrained pinvA mu cov) (mu.map Prod.fst)
    ∧ weightsOKOpt (max_sharpe_long_only oc mu2 cov2 mw) (mu2.map Prod.fst)
    ∧ (1 ≤ (x.map (clipQ 0 mw)).sum →
        ∀ w, max_sharpe_long_only oc mu2 cov2 mw = some w → ∀ e ∈ w, e.2 ≤ mw) := by
  have hclip : ∀ v ∈ x.map (clipQ 0 mw), 0 ≤ v := by
    intro v hv
    obtain ⟨y, _, rfl⟩ := List.mem_map.mp hv
    unfold clipQ
    exact le_min hmw (le_max_left 0 y)
  have hcliple : ∀ v ∈ x.map (clipQ 0 mw), v ≤ mw := by
    intro v hv
    obtain ⟨y, _, rfl⟩ := List.mem_map.mp hv
    exact min_le_left mw _
  have hmslen : (x.map (clipQ 0 mw)).length = mu2.length := by simp [hx]
  have hms : max_sharpe_long_only oc mu2 cov2 mw
      = some (List.zipWith (fun e v => (e.1, v / (x.map (clipQ 0 mw)).sum)) mu2
          (x.map (clipQ 0 mw))) := by
    unfold max_sharpe_long_only
    rw [hsolve]
    simp [hx]
  refine ⟨equal_weight_ok tickers ht, inverse_vol_ok sqrtA hsq p hp lb,
    tangency_ok pinvA mu cov m hpinv hm hmu, ?_, ?_⟩
  · rw [hms]
    unfold weightsOKOpt
    refine ⟨?_, ?_, ?_⟩
    · exact map_fst_zipWith_pair (fun _ v => v / (x.map (clipQ 0 mw)).sum) mu2 _ hmslen.symm
    · intro e he
      obtain ⟨v, hv, hev⟩ := snd_mem_zipWith_pair _ mu2 _ e he
      rw [hev]
      exact div_nonneg (hclip v hv) (le_of_lt hpos)
    · rw [map_snd_zipWith_pair, zipWith_const_snd _ mu2 _ hmslen.symm]
      rw [sum_map_div, div_self (ne_of_gt hpos)]
  · intro hone w hw e he
    rw [hms] at hw
    obtain ⟨v, hv, hev⟩ := snd_mem_zipWith_pair _ mu2 _ e (Option.some_inj.mp hw ▸ he)
    rw [hev]
    calc v / (x.map (clipQ 0 mw)).sum ≤ v := div_le_self (hclip v hv) hone
    _ ≤ mw := hcliple v hv

/-- Claim C2 counterexample: with the `equal` strategy on a two-asset universe
and configured `max_weight = 1/5`, every rebalance assigns weight 1/2 per
asset — violating the claimed per-component bound `max_weight + ε`. -/
theorem C2_counterexample_cap_violated :
    (rolling_optimize_weights ⟨id, id, id, fun _ => none, fun _ _ _ => none⟩
        ⟨["A", "B"], [(0, [some 1, some 1]), (1, [some 1, some 1])]⟩
        none .D .equal 0 none (1 / 5) (1 / 2) (1 / 2) (1 / 50) (3 / 20)).map
          RollingResult.schedule
      = some [(0, [1 / 2, 1 / 2]), (1, [1 / 2, 1 / 2])]
    ∧ ¬ ((1 : ℚ) / 2 ≤ 1 / 5 + 1 / 1000000) := by
  constructor
  · with_unfolding_all rfl
  · norm_num

/-- Witness for C2: the amended invariants instantiated on concrete inputs
(one-asset universes, identity square root, a concrete pseudo-inverse and a
concrete successful solve). -/
theorem C2_amended_weight_invariants_witness :
    weightsOK (equal_weight_weights ["A"]) ["A"]
    ∧ weightsOK (inverse_vol_weights id ⟨["A"], [(0, [some 1]), (1, [some 2])]⟩ 63 0)
        (Panel.syms ⟨["A"], [(0, [some 1]), (1, [some 2])]⟩)
    ∧ weightsOKOpt (tangency_unconstrained (fun _ => some [[1]]) [("A", 1)] [[some 1]])
        ([("A", (1 : ℚ))].map Prod.fst)
    ∧ weightsOKOpt
        (max_sharpe_long_only ⟨id, id, id, fun _ => some [[1]], fun _ _ _ => some [1]⟩
          [("A", 1)] [[some 1]] (1 / 5)) ([("A", (1 : ℚ))].map Prod.fst) := by
  have hpos : (0 : ℚ) < (List.map (clipQ 0 (1 / 5)) [1]).sum := by
    have hv : (List.map (clipQ 0 (1 / 5)) [1]).sum = 1 / 5 := by with_unfolding_all rfl
    rw [hv]
    norm_num
  have h := C2_amended_weight_invariants ["A"] (by decide) id (fun q hq => hq)
    ⟨["A"], [(0, [some 1]), (1, [some 2])]⟩ (by decide) 63
    (fun _ => some [[1]]) [("A", 1)] [[some 1]] [[1]] rfl (by decide) (by decide)
    ⟨id, id, id, fun _ => some [[1]], fun _ _ _ => some [1]⟩ [("A", 1)] [[some 1]] (1 / 5)
    [1] rfl (by decide) (by norm_num) hpos
  exact ⟨h.1, h.2.1, h.2.2.1, h.2.2.2.1⟩

/-! ## Claim C9 -/

/-- Claim C9: in `wassim_confidence` every missing or non-numeric `roe`/`roa`
is replaced by 0.0 before the cross-sectional z-scoring — the confidences of
a table with gaps equal those of the table with explicit zeros substituted,
for every square-root and CDF primitive — and the substituted zeros enter the
cross-sectional mean and deviation used for every other asset: asset Y's
score changes depending on whether the fundamentally-absent asset X is listed
(scored as zeros) or carries X's actual values. -/
theorem C9_wassim_zero_fill :
    (∀ (sqrtA cdfA : ℚ → ℚ) (rows : List FundRow),
        wassim_confidence sqrtA cdfA (zeroFillFunds rows)
          = wassim_confidence sqrtA cdfA rows)
    ∧ lookupD (wassim_confidence id id [⟨"X", none, none⟩, ⟨"Y", some 2, some 2⟩]) "Y" 0
        ≠ lookupD (wassim_confidence id id [⟨"X", some 2, some 2⟩, ⟨"Y", some 2, some 2⟩]) "Y" 0
    ∧ lookupD (wassim_confidence id id [⟨"X", none, none⟩, ⟨"Y", some 2, some 2⟩]) "Y" 0
        ≠ lookupD (wassim_confidence id id [⟨"Y", some 2, some 2⟩]) "Y" 0 := by
  have hxy : lookupD (wassim_confidence id id
      [⟨"X", none, none⟩, ⟨"Y", some 2, some 2⟩]) "Y" 0 = 1 := by with_unfolding_all rfl
  have hv2 : lookupD (wassim_confidence id id
      [⟨"X", some 2, some 2⟩, ⟨"Y", some 2, some 2⟩]) "Y" 0 = 0 := by with_unfolding_all rfl
  have hy1 : lookupD (wassim_confidence id id [⟨"Y", some 2, some 2⟩]) "Y" 0 = 0 := by
    with_unfolding_all rfl
  refine ⟨?_, by rw [hxy, hv2]; norm_num, by rw [hxy, hy1]; norm_num⟩
  intro sqrtA cdfA rows
  unfold wassim_confidence zeroFillFunds
  simp only [List.map_map]
  have h1 : ((fun r : FundRow => r.roe.getD 0) ∘ fun r : FundRow =>
      (⟨r.symbol, some (r.roe.getD 0), some (r.roa.getD 0)⟩ : FundRow))
      = fun r : FundRow => r.roe.getD 0 := rfl
  have h2 : ((fun r : FundRow => r.roa.getD 0) ∘ fun r : FundRow =>
      (⟨r.symbol, some (r.roe.getD 0), some (r.roa.getD 0)⟩ : FundRow))
      = fun r : FundRow => r.roa.getD 0 := rfl
  rw [h1, h2, List.zipWith_map_left]

/-! ## Backtester lemmas (claims C4, C7, C10) -/

lemma run_backtest_ok (p : Panel) (ws : Option Panel) (tw : Option (List (Sym × ℚ)))
    (freq : Freq) (cash cost : ℚ) (res : BacktestResult)
    (h : run_backtest p ws tw freq cash cost = .ok res) :
    res.equity_curve = btEquity ⟨p, ws, tw, freq, cash, cost⟩
    ∧ res.weights_history = (List.range p.rows.length).map (fun i =>
        ((p.rows.getD i (0, [])).1,
          (btCommon ⟨p, ws, tw, freq, cash, cost⟩).map
            (btNorm ⟨p, ws, tw, freq, cash, cost⟩ i))) := by
  unfold run_backtest at h
  split at h
  · exact absurd h (by simp)
  · dsimp only at h
    split at h
    · exact absurd h (by simp)
    · cases h
      exact ⟨rfl, rfl⟩

lemma btTurnover_nonneg (a : BtArgs) (i : Nat) : 0 ≤ btTurnover a i := by
  unfold btTurnover
  cases i with
  | zero => exact le_refl 0
  | succ j =>
    apply List.sum_nonneg
    intro x hx
    obtain ⟨s, _, rfl⟩ := List.mem_map.mp hx
    exact abs_nonneg _

lemma btEquity_getD (a : BtArgs) (i : Nat) (h : i < a.p.rows.length) :
    (btEquity a).getD i 0 = ((List.range (i + 1)).map (fun j => 1 + btNet a j)).prod := by
  unfold btEquity
  rw [cumprodFrom_getD _ _ _ (by simpa using h)]
  rw [one_mul, ← List.map_take, List.take_range, Nat.min_eq_left (by omega)]

lemma btNet_zero (a : BtArgs) : btNet a 0 = a.cash := by
  unfold btNet btGross btCost btTurnover
  simp

/-- Claim C4 (amended): the equity curve is the running cumulative product,
from initial capital 1.0, of `1 + net_t` where `net_t` applies the previous
period's normalized weights (exactly the rows of the returned weights
history) to period `t`'s returns minus the floored turnover cost plus the
cash rate — but the curve's first stored value is `1 + cash_rate_daily`,
which is 1.0 only when the cash rate is zero. -/
theorem C4_amended_equity_formula (p : Panel) (ws : Option Panel)
    (tw : Option (List (Sym × ℚ))) (freq : Freq) (cash cost : ℚ) (res : BacktestResult)
    (hok : run_backtest p ws tw freq cash cost = .ok res) :
    (∀ i < p.rows.length,
        res.equity_curve.getD i 0
          = ((List.range (i + 1)).map (fun j =>
              1 + (if j = 0 then cash else
                (List.zipWith (fun w r => w * r)
                    (res.weights_history.getD (j - 1) (0, [])).2
                    ((btCommon ⟨p, ws, tw, freq, cash, cost⟩).map
                      (fun s => btRet ⟨p, ws, tw, freq, cash, cost⟩ j s))).sum
                - max 0 ((List.zipWith (fun x y => |x - y|)
                      (res.weights_history.getD j (0, [])).2
                      (res.weights_history.getD (j - 1) (0, [])).2).sum * (cost / 10000))
                + cash))).prod)
    ∧ (p.rows ≠ [] → res.equity_curve.getD 0 0 = 1 + cash) := by
  obtain ⟨he, hw⟩ := run_backtest_ok p ws tw freq cash cost res hok
  set a : BtArgs := ⟨p, ws, tw, freq, cash, cost⟩ with ha
  have hkey : ∀ j < p.rows.length,
      (if j = 0 then cash else
        (List.zipWith (fun w r => w * r)
            (res.weights_history.getD (j - 1) (0, [])).2
            ((btCommon a).map (fun s => btRet a j s))).sum
        - max 0 ((List.zipWith (fun x y => |x - y|)
              (res.weights_history.getD j (0, [])).2
              (res.weights_history.getD (j - 1) (0, [])).2).sum * (cost / 10000))
        + cash) = btNet a j := by
    intro j hj
    cases j with
    | zero => simp [btNet_zero]
    | succ k =>
      have hk : k < p.rows.length := Nat.lt_of_succ_lt hj
      rw [hw]
      simp only [Nat.succ_sub_one, Nat.succ_ne_zero, if_false]
      rw [getD_map_range _ _ hj, getD_map_range _ _ hk]
      simp only
      have hg : (List.zipWith (fun w r => w * r)
          ((btCommon a).map (btNorm a k))
          ((btCommon a).map (fun s => btRet a (k + 1) s))).sum = btGross a (k + 1) := by
        rw [show (List.zipWith (fun w r => w * r)
            ((btCommon a).map (btNorm a k))
            ((btCommon a).map (fun s => btRet a (k + 1) s)))
          = (btCommon a).map (fun s => btNorm a k s * btRet a (k + 1) s) by
            simp [List.zipWith_map]]
        rfl
      have ht : (List.zipWith (fun x y => |x - y|)
          ((btCommon a).map (btNorm a (k + 1)))
          ((btCommon a).map (btNorm a k))).sum = btTurnover a (k + 1) := by
        rw [show (List.zipWith (fun x y => |x - y|)
            ((btCommon a).map (btNorm a (k + 1)))
            ((btCommon a).map (btNorm a k)))
          = (btCommon a).map (fun s => |btNorm a (k + 1) s - btNorm a k s|) by
            simp [List.zipWith_map]]
        rfl
      rw [hg, ht]
      rfl
  constructor
  · intro i hi
    rw [he, btEquity_getD a i hi]
    congr 1
    apply List.map_congr_left
    intro j hj
    have hjn : j < p.rows.length := lt_of_lt_of_le (List.mem_range.mp hj) hi
    rw [hkey j hjn]
  · intro hne
    have h0 : 0 < p.rows.length := List.length_pos.mpr hne
    rw [he, btEquity_getD a 0 h0]
    rw [show List.range 1 = [0] from rfl]
    simp [btNet_zero, ha]

/-- Claim C4 counterexample: with a non-zero cash rate the first value of the
returned equity curve is `1 + cash_rate_daily`, not 1.0. -/
theorem C4_counterexample_first_value :
    (run_backtest ⟨["A"], [(0, [some 1])]⟩ (some ⟨["A"], [(0, [some 1])]⟩) none .M
        (1 / 100) 0).map BacktestResult.equity_curve = .ok [101 / 100]
    ∧ (101 / 100 : ℚ) ≠ 1 := by
  constructor
  · with_unfolding_all rfl
  · norm_num

/-- Witness for C4: the amended first-value statement instantiated on a
one-row panel with cash rate 1/100. -/
theorem C4_amended_equity_formula_witness :
    (BacktestResult.equity_curve ⟨[101 / 100], [(0, [1])]⟩).getD 0 0 = 1 + 1 / 100 :=
  (C4_amended_equity_formula ⟨["A"], [(0, [some 1])]⟩ (some ⟨["A"], [(0, [some 1])]⟩)
    none .M (1 / 100) 0 ⟨[101 / 100], [(0, [1])]⟩ (by with_unfolding_all rfl)).2
    (by decide)

/-- Claim C7 (amended): with fixed weights and turnover, raising
`trading_cost_bps` can only lower the equity curve pointwise — provided no
period's net return under the higher cost drops below −100% (otherwise the
negative equity factors make products flip sign, see the counterexample). -/
theorem C7_amended_cost_monotonicity (p : Panel) (ws : Option Panel)
    (tw : Option (List (Sym × ℚ))) (freq : Freq) (cash c1 c2 : ℚ)
    (r1 r2 : BacktestResult) (hc : c1 ≤ c2)
    (h1 : run_backtest p ws tw freq cash c1 = .ok r1)
    (h2 : run_backtest p ws tw freq cash c2 = .ok r2)
    (hfac : ∀ i < p.rows.length, 0 ≤ 1 + btNet ⟨p, ws, tw, freq, cash, c2⟩ i) :
    ∀ i < p.rows.length, r2.equity_curve.getD i 0 ≤ r1.equity_curve.getD i 0 := by
  obtain ⟨he1, _⟩ := run_backtest_ok p ws tw freq cash c1 r1 h1
  obtain ⟨he2, _⟩ := run_backtest_ok p ws tw freq cash c2 r2 h2
  set a1 : BtArgs := ⟨p, ws, tw, freq, cash, c1⟩ with ha1
  set a2 : BtArgs := ⟨p, ws, tw, freq, cash, c2⟩ with ha2
  have hG : ∀ i, btGross a2 i = btGross a1 i := fun i => rfl
  have hT : ∀ i, btTurnover a2 i = btTurnover a1 i := fun i => rfl
  have hnet : ∀ i, btNet a2 i ≤ btNet a1 i := by
    intro i
    unfold btNet btCost
    rw [hG, hT]
    have hTnn : 0 ≤ btTurnover a1 i := btTurnover_nonneg a1 i
    have hdiv : c1 / 10000 ≤ c2 / 10000 :=
      (div_le_div_iff_of_pos_right (by norm_num : (0 : ℚ) < 10000)).mpr hc
    have hcc : btTurnover a1 i * (c1 / 10000) ≤ btTurnover a1 i * (c2 / 10000) :=
      mul_le_mul_of_nonneg_left hdiv hTnn
    have hmax : max 0 (btTurnover a1 i * (c1 / 10000))
        ≤ max 0 (btTurnover a1 i * (c2 / 10000)) := max_le_max (le_refl 0) hcc
    have := sub_le_sub_left hmax (btGross a1 i)
    linarith
  intro i hi
  rw [he1, he2, btEquity_getD a1 i hi, btEquity_getD a2 i hi]
  apply prod_range_le
  · intro j hj
    exact hfac j (lt_of_lt_of_le hj hi)
  · intro j _
    have := hnet j
    linarith

/-- Claim C7 counterexample: on a flat three-day panel with flip-flopping
weights, raising the cost parameter from 0 to 15000 bps drives two periods to
a net return of −300%, whose negative equity factors multiply back to a
HIGHER curve value (4 instead of 1) — the claimed pointwise monotonicity
fails without a bound on per-period losses. -/
theorem C7_counterexample_monotonicity_fails :
    (run_backtest ⟨["A", "B"], [(0, [some 1, some 1]), (1, [some 1, some 1]),
        (2, [some 1, some 1])]⟩
      (some ⟨["A", "B"], [(0, [some 1, some 0]), (1, [some 0, some 1]),
        (2, [some 1, some 0])]⟩) none .M 0 0).map BacktestResult.equity_curve
      = .ok [1, 1, 1]
    ∧ (run_backtest ⟨["A", "B"], [(0, [some 1, some 1]), (1, [some 1, some 1]),
        (2, [some 1, some 1])]⟩
      (some ⟨["A", "B"], [(0, [some 1, some 0]), (1, [some 0, some 1]),
        (2, [some 1, some 0])]⟩) none .M 0 15000).map BacktestResult.equity_curve
      = .ok [1, -2, 4]
    ∧ (0 : ℚ) ≤ 15000 ∧ ¬ ((4 : ℚ) ≤ 1) := by
  refine ⟨by with_unfolding_all rfl, by with_unfolding_all rfl, by norm_num, by norm_num⟩

/-- Witness for C7: the amended monotonicity applied to the same panel with
costs 0 and 100 bps, where every factor stays non-negative. -/
theorem C7_amended_cost_monotonicity_witness :
    (BacktestResult.equity_curve
        ⟨[1, 49 / 50, 2401 / 2500], [(0, [1, 0]), (1, [0, 1]), (2, [1, 0])]⟩).getD 2 0
      ≤ (BacktestResult.equity_curve
        ⟨[1, 1, 1], [(0, [1, 0]), (1, [0, 1]), (2, [1, 0])]⟩).getD 2 0 :=
  C7_amended_cost_monotonicity
    ⟨["A", "B"], [(0, [some 1, some 1]), (1, [some 1, some 1]), (2, [some 1, some 1])]⟩
    (some ⟨["A", "B"], [(0, [some 1, some 0]), (1, [some 0, some 1]), (2, [some 1, some 0])]⟩)
    none .M 0 0 100
    ⟨[1, 1, 1], [(0, [1, 0]), (1, [0, 1]), (2, [1, 0])]⟩
    ⟨[1, 49 / 50, 2401 / 2500], [(0, [1, 0]), (1, [0, 1]), (2, [1, 0])]⟩
    (by norm_num) (by with_unfolding_all rfl) (by with_unfolding_all rfl)
    (by
      intro i hi
      have hi3 : i < 3 := by simpa using hi
      interval_cases i
      · rw [show btNet ⟨⟨["A", "B"], [(0, [some 1, some 1]), (1, [some 1, some 1]),
            (2, [some 1, some 1])]⟩,
          some ⟨["A", "B"], [(0, [some 1, some 0]), (1, [some 0, some 1]), (2, [some 1, some 0])]⟩,
          none, .M, 0, 100⟩ 0 = 0 from by with_unfolding_all rfl]
        norm_num
      · rw [show btNet ⟨⟨["A", "B"], [(0, [some 1, some 1]), (1, [some 1, some 1]),
            (2, [some 1, some 1])]⟩,
          some ⟨["A", "B"], [(0, [some 1, some 0]), (1, [some 0, some 1]), (2, [some 1, some 0])]⟩,
          none, .M, 0, 100⟩ 1 = -1 / 50 from by with_unfolding_all rfl]
        norm_num
      · rw [show btNet ⟨⟨["A", "B"], [(0, [some 1, some 1]), (1, [some 1, some 1]),
            (2, [some 1, some 1])]⟩,
          some ⟨["A", "B"], [(0, [some 1, some 0]), (1, [some 0, some 1]), (2, [some 1, some 0])]⟩,
          none, .M, 0, 100⟩ 2 = -1 / 50 from by with_unfolding_all rfl]
        norm_num)
    2 (by norm_num)

/-! ## Claim C10 -/

lemma find?_filter_none {l : List Row} {d : Int} (h : ∀ q ∈ l, q.1 ≠ d) (pch : Row → Bool) :
    (l.filter pch).find? (fun q => q.1 == d) = none := by
  induction l with
  | nil => rfl
  | cons a t ih =>
    rw [List.filter_cons]
    split
    · rw [List.find?_cons_of_neg _ (by simpa using h a (List.mem_cons_self a t))]
      exact ih (fun q hq => h q (List.mem_cons_of_mem a hq))
    · exact ih (fun q hq => h q (List.mem_cons_of_mem a hq))

lemma find?_filter_keyed {l : List Row} {d : Int} {r : Row}
    (hnd : l.Pairwise (fun x q => x.1 ≠ q.1)) (hr : r ∈ l) (hd : r.1 = d) (pch : Row → Bool) :
    (l.filter pch).find? (fun q => q.1 == d) = if pch r then some r else none := by
  induction l with
  | nil => simp at hr
  | cons a t ih =>
    rcases List.mem_cons.mp hr with rfl | hrt
    · rw [List.filter_cons]
      split
      · rw [List.find?_cons_of_pos _ (by simp [hd])]
      · apply find?_filter_none
        intro q hq hqd
        exact (List.pairwise_cons.mp hnd).1 q hq (hd.trans hqd.symm)
    · have hane : a.1 ≠ r.1 := (List.pairwise_cons.mp hnd).1 r hrt
      have hafalse : (a.1 == d) = false := by
        simp only [beq_eq_false_iff_ne, ne_eq]
        rw [← hd]
        exact hane
      rw [List.filter_cons]
      split
      · simp only [List.find?_cons, hafalse]
        exact ih (List.pairwise_cons.mp hnd).2 hrt
      · exact ih (List.pairwise_cons.mp hnd).2 hrt

lemma map_fst_zip_consec (g : Row → Row → List (Option ℚ)) (s : List Row) :
    (List.zipWith (fun prev cur => (cur.1, g prev cur)) s s.tail).map Prod.fst
      = s.tail.map Prod.fst := by
  induction s with
  | nil => rfl
  | cons a t ih =>
    cases t with
    | nil => rfl
    | cons b u =>
      simp only [List.tail_cons, List.zipWith_cons_cons, List.map_cons] at ih ⊢
      rw [← (List.tail_cons : (b :: u).tail = u)]
      exact congrArg (List.cons b.1) (by simpa using ih)

lemma zipWith_pct_getD_none (a b : List (Option ℚ)) (j : Nat)
    (h : a.getD j none = none ∨ b.getD j none = none) :
    (List.zipWith pctCell a b).getD j none = none := by
  by_cases hj : j < (List.zipWith pctCell a b).length
  · have hja : j < a.length := by
      simp only [List.length_zipWith] at hj
      omega
    have hjb : j < b.length := by
      simp only [List.length_zipWith] at hj
      omega
    rw [List.getD_eq_getElem _ _ hj, List.getElem_zipWith]
    rw [List.getD_eq_getElem _ _ hja, List.getD_eq_getElem _ _ hjb] at h
    rcases h with h | h
    · rw [h]
      cases b[j] <;> rfl
    · rw [h]
      cases a[j] <;> rfl
  · exact List.getD_eq_default _ _ (by omega)

/-- Claim C10: the backtest reindexes the computed returns onto the full price
index with zero filling: the equity curve and the weights history carry one
row per price-panel date (first row included, same date labels), and every
undefined return cell — the first row, or a date/asset whose own or previous
price is missing — is read as exactly 0 by the portfolio-return dot
product. -/
theorem C10_full_index_zero_fill (p : Panel) (ws : Option Panel)
    (tw : Option (List (Sym × ℚ))) (freq : Freq) (cash cost : ℚ) (res : BacktestResult)
    (hok : run_backtest p ws tw freq cash cost = .ok res)
    (hsorted : p.rows.Pairwise (fun r q => r.1 < q.1)) :
    res.equity_curve.length = p.rows.length
    ∧ res.weights_history.length = p.rows.length
    ∧ res.weights_history.map Prod.fst = p.rows.map Prod.fst
    ∧ ∀ i < p.rows.length, ∀ s : Sym,
        (i = 0 ∨ (p.rows.getD i (0, [])).2.getD (p.syms.indexOf s) none = none
          ∨ (p.rows.getD (i - 1) (0, [])).2.getD (p.syms.indexOf s) none = none) →
        btRet ⟨p, ws, tw, freq, cash, cost⟩ i s = 0 := by
  obtain ⟨he, hw⟩ := run_backtest_ok p ws tw freq cash cost res hok
  have hsortEq : sortRows p.rows = p.rows :=
    List.Sorted.insertionSort_eq (hsorted.imp (fun h => le_of_lt h))
  refine ⟨?_, ?_, ?_, ?_⟩
  · rw [he]
    unfold btEquity
    rw [cumprodFrom_length]
    simp
  · rw [hw]
    simp
  · rw [hw, List.map_map]
    apply List.ext_getElem
    · simp
    · intro n h1 h2
      have hn : n < p.rows.length := by simpa using h2
      simp [List.getD_eq_getElem?_getD, List.getElem?_eq_getElem, hn]
  · intro i hi s hcase
    have hbt : btRet ⟨p, ws, tw, freq, cash, cost⟩ i s
        = (match (compute_returns p).rows.find?
              (fun r => r.1 == (p.rows.getD i (0, [])).1) with
          | some r => (r.2.getD (p.syms.indexOf s) none).getD 0
          | none => (0 : ℚ)) := rfl
    rw [hbt]
    cases hpr : p.rows with
    | nil =>
      rw [hpr] at hi
      simp at hi
    | cons r0 rest =>
      have hcr : (compute_returns p).rows
          = ((r0.1, r0.2.map (fun _ => (none : Option ℚ))) ::
              List.zipWith (fun prev cur => (cur.1, List.zipWith pctCell prev.2 cur.2))
                (r0 :: rest) rest).filter (fun r => !rowAllNone r) := by
        unfold compute_returns
        rw [hsortEq, hpr]
        rfl
      rw [hcr]
      have hmapeq : ((r0.1, r0.2.map (fun _ => (none : Option ℚ))) ::
          List.zipWith (fun prev cur => (cur.1, List.zipWith pctCell prev.2 cur.2))
            (r0 :: rest) rest).map Prod.fst = (r0 :: rest).map Prod.fst := by
        rw [List.map_cons]
        have hz := map_fst_zip_consec (fun prev cur => List.zipWith pctCell prev.2 cur.2)
          (r0 :: rest)
        simp only [List.tail_cons] at hz
        rw [hz]
        simp
      have hnd : ((r0.1, r0.2.map (fun _ => (none : Option ℚ))) ::
          List.zipWith (fun prev cur => (cur.1, List.zipWith pctCell prev.2 cur.2))
            (r0 :: rest) rest).Pairwise (fun x q => x.1 ≠ q.1) := by
      -- transfer distinctness of the date labels through the label-preserving map
        have hp0 : ((r0 :: rest).map Prod.fst).Pairwise (fun x y => x ≠ y) := by
          rw [List.pairwise_map]
          rw [hpr] at hsorted
          exact hsorted.imp (fun h => ne_of_lt h)
        have hp1 := hmapeq ▸ hp0
        rw [List.pairwise_map] at hp1
        exact hp1
      cases i with
      | zero =>
        have hd0 : ((r0.1, r0.2.map (fun _ => (none : Option ℚ))) : Row).1
            = (((r0 :: rest) : List Row).getD 0 (0, [])).1 := rfl
        rw [find?_filter_keyed hnd (List.mem_cons_self _ _) hd0 _]
        rw [if_neg (by simp [rowAllNone])]
      | succ k =>
        have hkr : k < rest.length := by
          rw [hpr] at hi
          simpa using hi
        have hk1 : k < (r0 :: rest).length := by
          simp only [List.length_cons]
          omega
        have hzlen : k < (List.zipWith (fun prev cur =>
            (cur.1, List.zipWith pctCell prev.2 cur.2)) (r0 :: rest) rest).length := by
          simp only [List.length_zipWith, List.length_cons]
          omega
        have hrrval : (List.zipWith (fun prev cur => (cur.1, List.zipWith pctCell prev.2 cur.2))
            (r0 :: rest) rest)[k]
            = (rest[k].1, List.zipWith pctCell (r0 :: rest)[k].2 rest[k].2) :=
          List.getElem_zipWith
        have hrmem : (rest[k].1, List.zipWith pctCell (r0 :: rest)[k].2 rest[k].2)
            ∈ (r0.1, r0.2.map (fun _ => (none : Option ℚ))) ::
              List.zipWith (fun prev cur => (cur.1, List.zipWith pctCell prev.2 cur.2))
                (r0 :: rest) rest :=
          List.mem_cons_of_mem _ (hrrval ▸ List.getElem_mem hzlen)
        have hks : k + 1 < (r0 :: rest).length := by
          simp only [List.length_cons]
          omega
        have hdk : ((rest[k].1, List.zipWith pctCell (r0 :: rest)[k].2 rest[k].2) : Row).1
            = (((r0 :: rest) : List Row).getD (k + 1) (0, [])).1 := by
          rw [List.getD_eq_getElem _ _ hks, List.getElem_cons_succ]
        rw [find?_filter_keyed hnd hrmem hdk _]
        by_cases hpch : ((!rowAllNone (rest[k].1,
            List.zipWith pctCell (r0 :: rest)[k].2 rest[k].2)) = true)
        · rw [if_pos hpch]
          show ((List.zipWith pctCell (r0 :: rest)[k].2 rest[k].2).getD
              (p.syms.indexOf s) none).getD 0 = 0
          rw [zipWith_pct_getD_none]
          · rfl
          · rcases hcase with hc | hc | hc
            · exact absurd hc (by omega)
            · right
              rw [hpr, List.getD_cons_succ, List.getD_eq_getElem _ _ hkr] at hc
              exact hc
            · left
              rw [hpr] at hc
              simp only [Nat.add_sub_cancel] at hc
              rw [List.getD_eq_getElem (r0 :: rest) ((0 : Int), ([] : List (Option ℚ))) hk1] at hc
              exact hc
        · rw [if_neg hpch]

/-- Witness for C10: the full-index statement instantiated on a panel with a
missing price at date 1 for asset A. -/
theorem C10_full_index_zero_fill_witness :
    (BacktestResult.equity_curve ⟨[1, 1, 1], [(0, [1, 0]), (1, [0, 1]), (2, [1, 0])]⟩).length
      = (Panel.rows ⟨["A", "B"], [(0, [some 1, some 2]), (1, [none, some 3]),
          (2, [some 2, some 3])]⟩).length
    ∧ btRet ⟨⟨["A", "B"], [(0, [some 1, some 2]), (1, [none, some 3]), (2, [some 2, some 3])]⟩,
        some ⟨["A", "B"], [(0, [some 1, some 0]), (1, [some 0, some 1]), (2, [some 1, some 0])]⟩,
        none, .M, 0, 0⟩ 1 "A" = 0 := by
  have h := C10_full_index_zero_fill
    ⟨["A", "B"], [(0, [some 1, some 2]), (1, [none, some 3]), (2, [some 2, some 3])]⟩
    (some ⟨["A", "B"], [(0, [some 1, some 0]), (1, [some 0, some 1]), (2, [some 1, some 0])]⟩)
    none .M 0 0 ⟨[1, 1, 1], [(0, [1, 0]), (1, [0, 1]), (2, [1, 0])]⟩
    (by with_unfolding_all rfl) (by decide)
  exact ⟨h.1, h.2.2.2 1 (by decide) "A" (Or.inr (Or.inl (by decide)))⟩

/-! ## Rolling-loop lemmas (claims C1, C3, C8) -/

instance : IsTotal Row rowLe := ⟨fun a b => le_total a.1 b.1⟩

instance : IsTrans Row rowLe := ⟨fun _ _ _ hab hbc => le_trans hab hbc⟩

lemma sorted_sortRows (l : List Row) : List.Sorted rowLe (sortRows l) :=
  List.sorted_insertionSort rowLe l

lemma take_countLE {l : List Row} (hs : List.Sorted rowLe l) (d : Int) :
    l.take (countLE l d) = l.filter (fun r => decide (r.1 ≤ d)) := by
  induction l with
  | nil => rfl
  | cons a t ih =>
    rw [List.sorted_cons] at hs
    by_cases had : a.1 ≤ d
    · have hstep : countLE (a :: t) d = countLE t d + 1 := by
        rw [countLE, countLE, List.countP_cons]
        simp [had]
      rw [hstep, List.filter_cons_of_pos (by simpa using had), List.take_succ_cons, ih hs.2]
    · have hc0 : countLE (a :: t) d = 0 := by
        rw [countLE, List.countP_eq_zero]
        intro b hb
        simp only [decide_eq_true_eq]
        rcases List.mem_cons.mp hb with rfl | hbt
        · exact had
        · exact fun hbd => had (le_trans (hs.1 b hbt) hbd)
      rw [hc0, List.take_zero]
      symm
      rw [List.filter_eq_nil_iff]
      intro b hb
      simp only [decide_eq_true_eq]
      rcases List.mem_cons.mp hb with rfl | hbt
      · exact had
      · exact fun hbd => had (le_trans (hs.1 b hbt) hbd)

lemma forall2_orderedInsert (D : Int) {l1 l2 : List Row} (a b : Row)
    (hab : agreeUpTo D a b) (h : List.Forall₂ (agreeUpTo D) l1 l2) :
    List.Forall₂ (agreeUpTo D) (List.orderedInsert rowLe a l1)
      (List.orderedInsert rowLe b l2) := by
  induction h with
  | nil => exact .cons hab .nil
  | @cons x y t1 t2 hxy hrest ih =>
    simp only [List.orderedInsert]
    by_cases hr : rowLe a x
    · rw [if_pos hr, if_pos (show rowLe b y by
        unfold rowLe at hr ⊢
        rw [← hab.1, ← hxy.1]
        exact hr)]
      exact .cons hab (.cons hxy hrest)
    · rw [if_neg hr, if_neg (show ¬ rowLe b y by
        unfold rowLe at hr ⊢
        rw [← hab.1, ← hxy.1]
        exact hr)]
      exact .cons hxy ih

lemma forall2_sortRows (D : Int) {l1 l2 : List Row}
    (h : List.Forall₂ (agreeUpTo D) l1 l2) :
    List.Forall₂ (agreeUpTo D) (sortRows l1) (sortRows l2) := by
  induction h with
  | nil => exact .nil
  | cons hab hrest ih =>
    simp only [sortRows, List.insertionSort]
    exact forall2_orderedInsert D _ _ hab ih

lemma forall2_map_fst (D : Int) {l1 l2 : List Row}
    (h : List.Forall₂ (agreeUpTo D) l1 l2) : l1.map Prod.fst = l2.map Prod.fst := by
  induction h with
  | nil => rfl
  | cons hab hrest ih =>
    simp only [List.map_cons, ih]
    rw [hab.1]

lemma forall2_filter_le (D d : Int) (hdD : d ≤ D) {l1 l2 : List Row}
    (h : List.Forall₂ (agreeUpTo D) l1 l2) :
    l1.filter (fun r => decide (r.1 ≤ d)) = l2.filter (fun r => decide (r.1 ≤ d)) := by
  induction h with
  | nil => rfl
  | @cons a b t1 t2 hab hrest ih =>
    rw [List.filter_cons, List.filter_cons]
    by_cases had : a.1 ≤ d
    · rw [if_pos (by simpa using had), if_pos (by
        simp only [decide_eq_true_eq]
        rw [← hab.1]
        exact had)]
      have hEq : a = b := Prod.ext hab.1 (hab.2 (le_trans had hdD))
      rw [hEq, ih]
    · rw [if_neg (by simpa using had), if_neg (by
        simp only [decide_eq_true_eq]
        rw [← hab.1]
        exact had)]
      exact ih

lemma countLE_map_fst (l : List Row) (d : Int) :
    countLE l d = (l.map Prod.fst).countP (fun x => decide (x ≤ d)) := by
  rw [countLE, List.countP_map]
  rfl

lemma withNext_length : ∀ l : List Int, (withNext l).length = l.length
  | [] => rfl
  | [_] => rfl
  | a :: b :: t => by
    simp only [withNext, List.length_cons]
    rw [show (withNext (b :: t)).length = (b :: t).length from withNext_length (b :: t)]
    simp

lemma withNext_getD : ∀ (l : List Int) (j : Nat), j < l.length →
    (withNext l).getD j (0, none) = (l.getD j 0, l[j + 1]?)
  | [], j, h => by simp at h
  | [a], 0, _ => by simp [withNext]
  | [a], j + 1, h => by simp at h
  | a :: b :: t, 0, _ => by simp [withNext]
  | a :: b :: t, j + 1, h => by
    simp only [withNext, List.getD_cons_succ]
    rw [withNext_getD (b :: t) j (by simpa using h)]
    simp

lemma withNext_fst_mem : ∀ {l : List Int} {it : Int × Option Int}, it ∈ withNext l → it.1 ∈ l
  | [], _, h => by simp [withNext] at h
  | [a], it, h => by
    simp only [withNext, List.mem_singleton] at h
    rw [h]
    exact List.mem_singleton.mpr rfl
  | a :: b :: t, it, h => by
    simp only [withNext, List.mem_cons] at h
    rcases h with h | h
    · rw [h]
      exact List.mem_cons_self _ _
    · exact List.mem_cons_of_mem _ (withNext_fst_mem h)

lemma genPeriodEnds_ge (f : Freq) : ∀ (fuel : Nat) (cur hi : Int),
    ∀ x ∈ genPeriodEnds f fuel cur hi, cur ≤ x := by
  intro fuel
  induction fuel with
  | zero => intro cur hi x hx; simp [genPeriodEnds] at hx
  | succ n ih =>
    intro cur hi x hx
    rw [genPeriodEnds] at hx
    split at hx
    · rcases List.mem_cons.mp hx with rfl | hx2
      · exact le_refl x
      · have := ih (max (periodEnd f (cur + 1)) (cur + 1)) hi x hx2
        have h2 : cur + 1 ≤ max (periodEnd f (cur + 1)) (cur + 1) := le_max_right _ _
        omega
    · simp at hx

lemma genPeriodEnds_pairwise (f : Freq) : ∀ (fuel : Nat) (cur hi : Int),
    (genPeriodEnds f fuel cur hi).Pairwise (· < ·) := by
  intro fuel
  induction fuel with
  | zero => intro cur hi; simp [genPeriodEnds]
  | succ n ih =>
    intro cur hi
    rw [genPeriodEnds]
    split
    · rw [List.pairwise_cons]
      refine ⟨?_, ih _ hi⟩
      intro x hx
      have h1 := genPeriodEnds_ge f n (max (periodEnd f (cur + 1)) (cur + 1)) hi x hx
      have h2 : cur + 1 ≤ max (periodEnd f (cur + 1)) (cur + 1) := le_max_right _ _
      omega
    · exact List.Pairwise.nil

lemma rebalCandidates_pairwise (p : Panel) (freq : Freq) (mtd : Nat) :
    (rebalCandidates p freq mtd).Pairwise (· < ·) := by
  unfold rebalCandidates
  apply List.Pairwise.filter
  unfold get_rebalancing_dates
  split
  · exact List.Pairwise.nil
  · exact genPeriodEnds_pairwise _ _ _ _

lemma rollingStep_miss (oc : Oracles) (strat : Strategy) (fund : Option (List FundRow))
    (symbols : List Sym) (sorted : List Row) (mtd : Nat) (lb : Option Nat)
    (mw ww wy al ah : ℚ) (acc : (Int → Option (List ℚ)) × List RebalEvent)
    (it : Int × Option Int) (t : Int) (h : inWindowB it.1 it.2 t = false) :
    (rollingStep oc strat fund symbols sorted mtd lb mw ww wy al ah acc it).1 t = acc.1 t := by
  unfold rollingStep
  cases htr : trainData sorted lb it.1 with
  | none => rfl
  | some train =>
    simp only
    split
    · rfl
    · cases hrw : rebalanceWeights oc strat fund symbols mw ww wy al ah train with
      | none => rfl
      | some w =>
        simp only [h]
        rw [if_neg (by simp [h])]

lemma rollingStep_skip (oc : Oracles) (strat : Strategy) (fund : Option (List FundRow))
    (symbols : List Sym) (sorted : List Row) (mtd : Nat) (lb : Option Nat)
    (mw ww wy al ah : ℚ) (acc : (Int → Option (List ℚ)) × List RebalEvent)
    (it : Int × Option Int)
    (h : match trainData sorted lb it.1 with
      | none => True
      | some train => train.length < mtd / 2 ∨
          rebalanceWeights oc strat fund symbols mw ww wy al ah train = none) :
    rollingStep oc strat fund symbols sorted mtd lb mw ww wy al ah acc it = acc := by
  unfold rollingStep
  cases htr : trainData sorted lb it.1 with
  | none => rfl
  | some train =>
    rw [htr] at h
    simp only
    rcases h with h | h
    · rw [if_pos h]
    · split
      · rfl
      · rw [h]

lemma foldl_rollingStep_fix (oc : Oracles) (strat : Strategy) (fund : Option (List FundRow))
    (symbols : List Sym) (sorted : List Row) (mtd : Nat) (lb : Option Nat)
    (mw ww wy al ah : ℚ) (t : Int) (its : List (Int × Option Int))
    (h : ∀ it ∈ its, ∀ acc,
      (rollingStep oc strat fund symbols sorted mtd lb mw ww wy al ah acc it).1 t = acc.1 t) :
    ∀ acc, (its.foldl (rollingStep oc strat fund symbols sorted mtd lb mw ww wy al ah) acc).1 t
      = acc.1 t := by
  induction its with
  | nil => intro acc; rfl
  | cons it rest ih =>
    intro acc
    rw [List.foldl_cons]
    rw [ih (fun x hx => h x (List.mem_cons_of_mem it hx)) _]
    exact h it (List.mem_cons_self it rest) acc

lemma rolling_ok (oc : Oracles) (p : Panel) (fund : Option (List FundRow)) (freq : Freq)
    (strat : Strategy) (mtd : Nat) (lb : Option Nat) (mw ww wy al ah : ℚ) (r : RollingResult)
    (h : rolling_optimize_weights oc p fund freq strat mtd lb mw ww wy al ah = some r) :
    r.schedule = (sortRows p.rows).map (fun row => (row.1,
        (((withNext (rebalCandidates p freq mtd)).foldl
          (rollingStep oc strat fund p.syms (sortRows p.rows) mtd lb mw ww wy al ah)
          (fun _ => none, [])).1 row.1).getD (p.syms.map (fun _ => 0))))
    ∧ r.history = ((withNext (rebalCandidates p freq mtd)).foldl
        (rollingStep oc strat fund p.syms (sortRows p.rows) mtd lb mw ww wy al ah)
        (fun _ => none, [])).2 := by
  unfold rolling_optimize_weights at h
  dsimp only at h
  split at h
  · exact absurd h (by simp)
  · cases h
    exact ⟨rfl, rfl⟩

/-! ## Claim C8 -/

lemma rebalCandidates_first_le (p : Panel) (freq : Freq) (mtd : Nat) (d : Int)
    (hd : d ∈ rebalCandidates p freq mtd) : 1 ≤ countLE (sortRows p.rows) d := by
  unfold rebalCandidates at hd
  dsimp only at hd
  have hmem := (List.mem_filter.mp hd).1
  have hfil := (List.mem_filter.mp hd).2
  cases hsp : sortRows p.rows with
  | nil =>
    rw [hsp] at hmem
    simp [get_rebalancing_dates] at hmem
  | cons s0 rest =>
    rw [hsp] at hfil
    simp only [List.map_cons, List.headD_cons, decide_eq_true_eq] at hfil
    have hle : s0.1 ≤ d := by omega
    rw [countLE, List.countP_cons]
    simp [hle]

/-- Claim C8: with a rolling lookback that always exceeds the number of
history rows available at each candidate rebalance date, the rolling-window
run returns exactly the expanding-window run — identical weight schedules and
identical audit logs. -/
theorem C8_expanding_eq_large_rolling (oc : Oracles) (p : Panel)
    (fund : Option (List FundRow)) (freq : Freq) (strat : Strategy) (mtd L : Nat)
    (mw ww wy al ah : ℚ)
    (hL : ∀ d ∈ rebalCandidates p freq mtd, countLE (sortRows p.rows) d < L) :
    rolling_optimize_weights oc p fund freq strat mtd (some L) mw ww wy al ah
      = rolling_optimize_weights oc p fund freq strat mtd none mw ww wy al ah := by
  have htd : ∀ d ∈ rebalCandidates p freq mtd,
      trainData (sortRows p.rows) (some L) d = trainData (sortRows p.rows) none d := by
    intro d hd
    have hc1 := rebalCandidates_first_le p freq mtd d hd
    have hcL := hL d hd
    unfold trainData
    dsimp only
    rw [if_pos (by omega : L ≠ 0)]
    rw [if_neg (by omega : ¬ countLE (sortRows p.rows) d = 0)]
    rw [Nat.sub_eq_zero_of_le (le_of_lt hcL), List.drop_zero]
    rw [take_countLE (sorted_sortRows p.rows) d]
  have hfold : ∀ acc, (withNext (rebalCandidates p freq mtd)).foldl
        (rollingStep oc strat fund p.syms (sortRows p.rows) mtd (some L) mw ww wy al ah) acc
      = (withNext (rebalCandidates p freq mtd)).foldl
        (rollingStep oc strat fund p.syms (sortRows p.rows) mtd none mw ww wy al ah) acc := by
    intro acc
    apply List.foldl_ext
    intro acc2 it hit
    unfold rollingStep
    rw [htd it.1 (withNext_fst_mem hit)]
  unfold rolling_optimize_weights
  dsimp only
  by_cases hre : (rebalCandidates p freq mtd).isEmpty
  · rw [if_pos hre, if_pos hre]
  · rw [if_neg hre, if_neg hre, hfold]

/-- Witness for C8: the equality instantiated on a concrete two-day panel with
equal-weight strategy and lookback 5 (history never exceeds 2 rows). -/
theorem C8_expanding_eq_large_rolling_witness :
    rolling_optimize_weights ⟨id, id, id, fun _ => none, fun _ _ _ => none⟩
        ⟨["A", "B"], [(0, [some 1, some 1]), (1, [some 1, some 1])]⟩
        none .D .equal 0 (some 5) (1 / 5) (1 / 2) (1 / 2) (1 / 50) (3 / 20)
      = rolling_optimize_weights ⟨id, id, id, fun _ => none, fun _ _ _ => none⟩
        ⟨["A", "B"], [(0, [some 1, some 1]), (1, [some 1, some 1])]⟩
        none .D .equal 0 none (1 / 5) (1 / 2) (1 / 2) (1 / 50) (3 / 20) :=
  C8_expanding_eq_large_rolling ⟨id, id, id, fun _ => none, fun _ _ _ => none⟩
    ⟨["A", "B"], [(0, [some 1, some 1]), (1, [some 1, some 1])]⟩
    none .D .equal 0 5 (1 / 5) (1 / 2) (1 / 2) (1 / 50) (3 / 20) (by decide)

/-! ## Claim C3 -/

/-- Claim C3 (amended): when the rebalance at candidate index `k` is skipped
(short slice or raised optimization), the trading dates in `[d_k, d_(k+1))`
do NOT keep the previous rebalance's weights — every earlier successful
assignment stops at its own next candidate date, every later one starts at
`d_(k+1)` or beyond, and the final `fillna(0.0)` zero-fills the whole skipped
window. -/
theorem C3_amended_skipped_window_zero (oc : Oracles) (p : Panel)
    (fund : Option (List FundRow)) (freq : Freq) (strat : Strategy) (mtd : Nat)
    (lb : Option Nat) (mw ww wy al ah : ℚ) (r : RollingResult) (k : Nat)
    (hok : rolling_optimize_weights oc p fund freq strat mtd lb mw ww wy al ah = some r)
    (hk : k < (rebalCandidates p freq mtd).length)
    (hskip : skippedAt oc p fund freq strat mtd lb mw ww wy al ah k) :
    ∀ row ∈ r.schedule, (rebalCandidates p freq mtd).getD k 0 ≤ row.1 →
      (∀ nd, (rebalCandidates p freq mtd)[k + 1]? = some nd → row.1 < nd) →
      row.2 = p.syms.map (fun _ => (0 : ℚ)) := by
  obtain ⟨hsch, _⟩ := rolling_ok oc p fund freq strat mtd lb mw ww wy al ah r hok
  intro row hrow hlo hhi
  rw [hsch] at hrow
  obtain ⟨src, hsrc, hval⟩ := List.mem_map.mp hrow
  rw [← hval] at hlo hhi ⊢
  simp only at hlo hhi ⊢
  have hpw := rebalCandidates_pairwise p freq mtd
  have hmono := List.pairwise_iff_getElem.mp hpw
  have hF : (((withNext (rebalCandidates p freq mtd)).foldl
      (rollingStep oc strat fund p.syms (sortRows p.rows) mtd lb mw ww wy al ah)
      (fun _ => none, [])).1 src.1) = none := by
    rw [foldl_rollingStep_fix oc strat fund p.syms (sortRows p.rows) mtd lb mw ww wy al ah
      src.1 (withNext (rebalCandidates p freq mtd)) ?helts (fun _ => none, [])]
    case helts =>
      intro it hit acc
      obtain ⟨j, hj, hitj⟩ := List.mem_iff_getElem.mp hit
      have hjlen : j < (rebalCandidates p freq mtd).length := by
        rw [← withNext_length (rebalCandidates p freq mtd)]
        exact hj
      have hitval : it = ((rebalCandidates p freq mtd).getD j 0,
          (rebalCandidates p freq mtd)[j + 1]?) := by
        rw [← hitj, ← List.getD_eq_getElem (withNext (rebalCandidates p freq mtd)) (0, none) hj]
        exact withNext_getD (rebalCandidates p freq mtd) j hjlen
      by_cases hjk : j = k
      · subst hjk
        rw [show rollingStep oc strat fund p.syms (sortRows p.rows) mtd lb mw ww wy al ah
            acc it = acc from ?_]
        apply rollingStep_skip
        unfold skippedAt at hskip
        rw [hitval]
        exact hskip
      · apply rollingStep_miss
        rcases Nat.lt_or_ge j k with hlt | hge
        · have hj1 : j + 1 < (rebalCandidates p freq mtd).length := by omega
          have hnext : (rebalCandidates p freq mtd)[j + 1]?
              = some ((rebalCandidates p freq mtd)[j + 1]) :=
            List.getElem?_eq_getElem hj1
          have hle2 : (rebalCandidates p freq mtd)[j + 1] ≤ src.1 := by
            rcases Nat.lt_or_ge (j + 1) k with h2 | h2
            · have := hmono (j + 1) k hj1 hk h2
              rw [List.getD_eq_getElem _ 0 hk] at hlo
              omega
            · have hj1k : j + 1 = k := by omega
              rw [List.getD_eq_getElem _ 0 hk] at hlo
              rw [show (rebalCandidates p freq mtd)[j + 1]
                  = (rebalCandidates p freq mtd)[k] from by congr 1]
              exact hlo
          rw [hitval]
          unfold inWindowB
          simp only [hnext]
          have hnl : ¬ (src.1 < (rebalCandidates p freq mtd)[j + 1]) := not_lt.mpr hle2
          simp [hnl]
        · have hkj : k < j := by omega
          have hk1 : k + 1 < (rebalCandidates p freq mtd).length := by omega
          have hsmall := hhi ((rebalCandidates p freq mtd)[k + 1])
            (List.getElem?_eq_getElem hk1)
          have hle3 : (rebalCandidates p freq mtd)[k + 1] ≤ (rebalCandidates p freq mtd)[j] := by
            rcases Nat.lt_or_ge (k + 1) j with h2 | h2
            · exact le_of_lt (hmono (k + 1) j hk1 hjlen h2)
            · have : k + 1 = j := by omega
              rw [show (rebalCandidates p freq mtd)[k + 1]
                  = (rebalCandidates p freq mtd)[j] from by congr 1]
          have hgt : ¬ ((rebalCandidates p freq mtd).getD j 0 ≤ src.1) := by
            rw [List.getD_eq_getElem _ 0 hjlen]
            omega
          rw [hitval]
          unfold inWindowB
          rw [List.getD_eq_getElem?_getD] at hgt
          simp [hgt]
  rw [hF]
  rfl

/-- Claim C3 counterexample: on a two-day panel the date-0 `mpt` rebalance
succeeds with weights [1, 0], the date-1 optimization raises (the solver
fails and the pseudo-inverse raises on the degenerate covariance) and is
skipped — and the date-1 schedule row comes out as [0, 0], zero-filled, not
the prior rebalance's [1, 0]. -/
theorem C3_counterexample_skip_resets_to_zero :
    rolling_optimize_weights ⟨id, id, id, fun _ => none,
        fun _ s _ => if s = [[none, none], [none, none]] then some [1, 0] else none⟩
      ⟨["A", "B"], [(0, [some 1, some 1]), (1, [some 1, some 1])]⟩
      none .D .mpt 0 none 1 (1 / 2) (1 / 2) (1 / 50) (3 / 20)
      = some ⟨[(0, [1, 0]), (1, [0, 0])], [⟨0, 1, [("A", 1), ("B", 0)]⟩]⟩
    ∧ ([0, 0] : List ℚ) ≠ [1, 0] :=
  ⟨by with_unfolding_all rfl, by decide⟩

/-- Witness for C3: the amended zero-fill statement applied to the concrete
skipped rebalance above (candidate index 1). -/
theorem C3_amended_skipped_window_zero_witness :
    (((1 : Int), ([0, 0] : List ℚ))).2 = (["A", "B"] : List Sym).map (fun _ => (0 : ℚ)) := by
  have hsk : skippedAt ⟨id, id, id, fun _ => none,
      fun _ s _ => if s = [[none, none], [none, none]] then some [1, 0] else none⟩
      ⟨["A", "B"], [(0, [some 1, some 1]), (1, [some 1, some 1])]⟩
      none .D .mpt 0 none 1 (1 / 2) (1 / 2) (1 / 50) (3 / 20) 1 := by
    unfold skippedAt
    rw [show trainData (sortRows (Panel.rows
        ⟨["A", "B"], [(0, [some 1, some 1]), (1, [some 1, some 1])]⟩)) none
        ((rebalCandidates ⟨["A", "B"], [(0, [some 1, some 1]), (1, [some 1, some 1])]⟩
          .D 0).getD 1 0)
        = some [(0, [some 1, some 1]), (1, [some 1, some 1])] from by with_unfolding_all rfl]
    exact Or.inr (by with_unfolding_all rfl)
  exact C3_amended_skipped_window_zero ⟨id, id, id, fun _ => none,
      fun _ s _ => if s = [[none, none], [none, none]] then some [1, 0] else none⟩
    ⟨["A", "B"], [(0, [some 1, some 1]), (1, [some 1, some 1])]⟩
    none .D .mpt 0 none 1 (1 / 2) (1 / 2) (1 / 50) (3 / 20)
    ⟨[(0, [1, 0]), (1, [0, 0])], [⟨0, 1, [("A", 1), ("B", 0)]⟩]⟩ 1
    (by with_unfolding_all rfl) (by decide) hsk
    (1, [0, 0]) (List.mem_cons_of_mem _ (List.mem_cons_self _ _))
    (by decide)
    (by
      intro nd h
      rw [show (rebalCandidates ⟨["A", "B"], [(0, [some 1, some 1]), (1, [some 1, some 1])]⟩
          .D 0)[2]? = none from by with_unfolding_all rfl] at h
      exact absurd h (by simp))

/-! ## Claim C1 -/

lemma trainData_agree (D d : Int) (hdD : d ≤ D) (lb : Option Nat) {s1 s2 : List Row}
    (hs1 : List.Sorted rowLe s1) (hs2 : List.Sorted rowLe s2)
    (hrel : List.Forall₂ (agreeUpTo D) s1 s2) :
    trainData s1 lb d = trainData s2 lb d := by
  have hfst : s1.map Prod.fst = s2.map Prod.fst := forall2_map_fst D hrel
  have hfil : s1.filter (fun r => decide (r.1 ≤ d)) = s2.filter (fun r => decide (r.1 ≤ d)) :=
    forall2_filter_le D d hdD hrel
  have hcnt : countLE s1 d = countLE s2 d := by
    rw [countLE_map_fst, countLE_map_fst, hfst]
  unfold trainData
  cases lb with
  | none => rw [hfil]
  | some L =>
    dsimp only
    by_cases hL : L ≠ 0
    · rw [if_pos hL, if_pos hL, hcnt]
      by_cases hc : countLE s2 d = 0
      · rw [if_pos hc, if_pos hc]
      · rw [if_neg hc, if_neg hc]
        have h1 : s1.take (countLE s1 d) = s2.take (countLE s2 d) := by
          rw [take_countLE hs1 d, take_countLE hs2 d, hfil]
        rw [hcnt] at h1
        rw [h1]
    · rw [if_neg hL, if_neg hL, hfil]

lemma foldl_lockstep (oc : Oracles) (strat : Strategy) (fund : Option (List FundRow))
    (symbols : List Sym) (s1 s2 : List Row) (mtd : Nat) (lb : Option Nat)
    (mw ww wy al ah : ℚ) (D : Int)
    (htd : ∀ dd ≤ D, trainData s1 lb dd = trainData s2 lb dd) :
    ∀ (its : List (Int × Option Int))
      (acc1 acc2 : (Int → Option (List ℚ)) × List RebalEvent),
      (∀ t ≤ D, acc1.1 t = acc2.1 t) →
      ∀ t ≤ D,
        (its.foldl (rollingStep oc strat fund symbols s1 mtd lb mw ww wy al ah) acc1).1 t
          = (its.foldl (rollingStep oc strat fund symbols s2 mtd lb mw ww wy al ah) acc2).1 t := by
  intro its
  induction its with
  | nil =>
    intro acc1 acc2 hacc t ht
    exact hacc t ht
  | cons it rest ih =>
    intro acc1 acc2 hacc t ht
    rw [List.foldl_cons, List.foldl_cons]
    refine ih _ _ ?_ t ht
    intro u hu
    by_cases hit : it.1 ≤ D
    · have htde := htd it.1 hit
      unfold rollingStep
      rw [htde]
      cases htr : trainData s2 lb it.1 with
      | none => exact hacc u hu
      | some train =>
        simp only
        split
        · exact hacc u hu
        · cases hrw : rebalanceWeights oc strat fund symbols mw ww wy al ah train with
          | none => exact hacc u hu
          | some w =>
            simp only
            by_cases hw : inWindowB it.1 it.2 u = true
            · rw [if_pos hw, if_pos hw]
            · rw [if_neg hw, if_neg hw]
              exact hacc u hu
    · have hm1 : inWindowB it.1 it.2 u = false := by
        unfold inWindowB
        have hnle : ¬ (it.1 ≤ u) := by omega
        simp [hnle]
      rw [rollingStep_miss oc strat fund symbols s1 mtd lb mw ww wy al ah acc1 it u hm1]
      rw [rollingStep_miss oc strat fund symbols s2 mtd lb mw ww wy al ah acc2 it u hm1]
      exact hacc u hu

lemma filter_map_sched (D : Int) {s1 s2 : List Row}
    (hrel : List.Forall₂ (agreeUpTo D) s1 s2)
    (F1 F2 : Int → Option (List ℚ)) (z : List ℚ)
    (hF : ∀ t ≤ D, F1 t = F2 t) :
    (s1.map (fun row => (row.1, (F1 row.1).getD z))).filter (fun row => decide (row.1 ≤ D))
      = (s2.map (fun row => (row.1, (F2 row.1).getD z))).filter
          (fun row => decide (row.1 ≤ D)) := by
  induction hrel with
  | nil => rfl
  | @cons a b t1 t2 hab hrest ih =>
    rw [List.map_cons, List.map_cons, List.filter_cons, List.filter_cons]
    by_cases had : a.1 ≤ D
    · rw [if_pos (by simpa using had), if_pos (by
        simp only [decide_eq_true_eq]
        rw [← hab.1]
        exact had)]
      rw [ih, hab.1, hF b.1 (hab.1 ▸ had)]
    · rw [if_neg (by simpa using had), if_neg (by
        simp only [decide_eq_true_eq]
        rw [← hab.1]
        exact had)]
      exact ih

/-- Claim C1 (no look-ahead): two price panels with the same asset columns and
the same date labels that agree on every row dated at or before a rebalance
date `D` produce, for every strategy, window mode and configuration and any
fixed numeric oracles, identical weight-schedule rows for all trading dates at
or before `D` — mutating rows strictly after `D` cannot change past
weights. -/
theorem C1_no_lookahead (oc : Oracles) (p1 p2 : Panel) (fund : Option (List FundRow))
    (freq : Freq) (strat : Strategy) (mtd : Nat) (lb : Option Nat) (mw ww wy al ah : ℚ)
    (D : Int) (r1 r2 : RollingResult)
    (hsym : p1.syms = p2.syms)
    (hrel : List.Forall₂ (agreeUpTo D) p1.rows p2.rows)
    (hD : D ∈ rebalCandidates p1 freq mtd)
    (h1 : rolling_optimize_weights oc p1 fund freq strat mtd lb mw ww wy al ah = some r1)
    (h2 : rolling_optimize_weights oc p2 fund freq strat mtd lb mw ww wy al ah = some r2) :
    r1.schedule.filter (fun row => decide (row.1 ≤ D))
      = r2.schedule.filter (fun row => decide (row.1 ≤ D)) := by
  obtain ⟨hsc1, _⟩ := rolling_ok oc p1 fund freq strat mtd lb mw ww wy al ah r1 h1
  obtain ⟨hsc2, _⟩ := rolling_ok oc p2 fund freq strat mtd lb mw ww wy al ah r2 h2
  have hrels : List.Forall₂ (agreeUpTo D) (sortRows p1.rows) (sortRows p2.rows) :=
    forall2_sortRows D hrel
  have hfst : (sortRows p1.rows).map Prod.fst = (sortRows p2.rows).map Prod.fst :=
    forall2_map_fst D hrels
  have hreb : rebalCandidates p1 freq mtd = rebalCandidates p2 freq mtd := by
    unfold rebalCandidates
    dsimp only
    rw [hfst]
  have htd : ∀ dd ≤ D, trainData (sortRows p1.rows) lb dd
      = trainData (sortRows p2.rows) lb dd :=
    fun dd hdd =>
      trainData_agree D dd hdd lb (sorted_sortRows _) (sorted_sortRows _) hrels
  rw [hsc1, hsc2, hsym, hreb]
  exact filter_map_sched D hrels _ _ _
    (foldl_lockstep oc strat fund p2.syms (sortRows p1.rows) (sortRows p2.rows) mtd lb
      mw ww wy al ah D htd (withNext (rebalCandidates p2 freq mtd))
      (fun _ => none, []) (fun _ => none, []) (fun _ _ => rfl))

/-- Witness for C1: two concrete panels agreeing up to date 0 and differing
at date 1 yield the same schedule rows at dates at most 0. -/
theorem C1_no_lookahead_witness :
    (RollingResult.schedule ⟨[(0, [1 / 2, 1 / 2]), (1, [1 / 2, 1 / 2])],
        [⟨0, 1, [("A", 1 / 2), ("B", 1 / 2)]⟩, ⟨1, 2, [("A", 1 / 2), ("B", 1 / 2)]⟩]⟩).filter
        (fun row => decide (row.1 ≤ 0))
      = (RollingResult.schedule ⟨[(0, [1 / 2, 1 / 2]), (1, [1 / 2, 1 / 2])],
        [⟨0, 1, [("A", 1 / 2), ("B", 1 / 2)]⟩, ⟨1, 2, [("A", 1 / 2), ("B", 1 / 2)]⟩]⟩).filter
        (fun row => decide (row.1 ≤ 0)) :=
  C1_no_lookahead ⟨id, id, id, fun _ => none, fun _ _ _ => none⟩
    ⟨["A", "B"], [(0, [some 1, some 1]), (1, [some 1, some 1])]⟩
    ⟨["A", "B"], [(0, [some 1, some 1]), (1, [some 2, some 3])]⟩
    none .D .equal 0 none (1 / 5) (1 / 2) (1 / 2) (1 / 50) (3 / 20) 0
    ⟨[(0, [1 / 2, 1 / 2]), (1, [1 / 2, 1 / 2])],
      [⟨0, 1, [("A", 1 / 2), ("B", 1 / 2)]⟩, ⟨1, 2, [("A", 1 / 2), ("B", 1 / 2)]⟩]⟩
    ⟨[(0, [1 / 2, 1 / 2]), (1, [1 / 2, 1 / 2])],
      [⟨0, 1, [("A", 1 / 2), ("B", 1 / 2)]⟩, ⟨1, 2, [("A", 1 / 2), ("B", 1 / 2)]⟩]⟩
    rfl
    (id (List.Forall₂.cons ⟨rfl, fun _ => rfl⟩
      (List.Forall₂.cons ⟨rfl, fun h => absurd h (by decide)⟩ List.Forall₂.nil)))
    (by decide) (by with_unfolding_all rfl) (by with_unfolding_all rfl)

end Spec2Proof
